import Mathlib

/-!
Verification development for the sharded-ledger library.

The Go sources are shallowly embedded: Go strings are Lean `String`s
(converted to their UTF-8 byte sequences, `List Nat`, wherever the code
hashes them), Go `int` is `Int`, Go `[]T` is `List T`, Go maps are
association lists in insertion order, and `math/big` modular
exponentiation is `powMod`.  Functions that read the wall clock take the
timestamp as an explicit argument.  Functions whose Go original can
panic return `Option`, with `none` standing for the panic.
-/

set_option maxRecDepth 100000

/-! ## Bytes, hex, UTF-8 -/

/-- Mask to a 32-bit word, `x % 2^32`. -/
def wmask (x : Nat) : Nat := x % 4294967296

/-- Big-endian byte representation of `v` in exactly `k` bytes. -/
def toBytesBE : Nat → Nat → List Nat
  | 0, _ => []
  | k + 1, v => toBytesBE k (v / 256) ++ [v % 256]

/-- Lower-case hex digit for a value below 16. -/
def hexDigit (n : Nat) : Char := Char.ofNat (if n < 10 then 48 + n else 87 + n)

/-- Lower-case hex encoding of a byte list. -/
def bytesToHex (l : List Nat) : String :=
  String.mk ((l.map (fun b => [hexDigit (b / 16), hexDigit (b % 16)])).flatten)

/-- UTF-8 encoding of a Unicode code point (Lean `Char`s are never surrogates). -/
def utf8Bytes (c : Nat) : List Nat :=
  if c < 128 then [c]
  else if c < 2048 then [192 ||| (c >>> 6), 128 ||| (c &&& 63)]
  else if c < 65536 then
    [224 ||| (c >>> 12), 128 ||| ((c >>> 6) &&& 63), 128 ||| (c &&& 63)]
  else
    [240 ||| (c >>> 18), 128 ||| ((c >>> 12) &&& 63),
     128 ||| ((c >>> 6) &&& 63), 128 ||| (c &&& 63)]

/-- The byte sequence of a string, as Go's `[]byte(s)` produces it. -/
def strBytes (s : String) : List Nat := (s.data.map (fun c => utf8Bytes c.toNat)).flatten

/-! ## SHA-256 -/

def sha256K : List Nat :=
  [1116352408, 1899447441, 3049323471, 3921009573, 961987163,
   1508970993, 2453635748, 2870763221, 3624381080, 310598401,
   607225278, 1426881987, 1925078388, 2162078206, 2614888103,
   3248222580, 3835390401, 4022224774, 264347078, 604807628,
   770255983, 1249150122, 1555081692, 1996064986, 2554220882,
   2821834349, 2952996808, 3210313671, 3336571891, 3584528711,
   113926993, 338241895, 666307205, 773529912, 1294757372,
   1396182291, 1695183700, 1986661051, 2177026350, 2456956037,
   2730485921, 2820302411, 3259730800, 3345764771, 3516065817,
   3600352804, 4094571909, 275423344, 430227734, 506948616,
   659060556, 883997877, 958139571, 1322822218, 1537002063,
   1747873779, 1955562222, 2024104815, 2227730452, 2361852424,
   2428436474, 2756734187, 3204031479, 3329325298]

def sha256H0 : List Nat :=
  [1779033703, 3144134277, 1013904242, 2773480762,
   1359893119, 2600822924, 528734635, 1541459225]

def rotr (n x : Nat) : Nat := wmask ((x >>> n) ||| (x <<< (32 - n)))

def sigma0 (x : Nat) : Nat := (rotr 7 x) ^^^ (rotr 18 x) ^^^ (x >>> 3)
def sigma1 (x : Nat) : Nat := (rotr 17 x) ^^^ (rotr 19 x) ^^^ (x >>> 10)
def bigSigma0 (x : Nat) : Nat := (rotr 2 x) ^^^ (rotr 13 x) ^^^ (rotr 22 x)
def bigSigma1 (x : Nat) : Nat := (rotr 6 x) ^^^ (rotr 11 x) ^^^ (rotr 25 x)
def chFn (x y z : Nat) : Nat := (x &&& y) ^^^ ((x ^^^ 4294967295) &&& z)
def majFn (x y z : Nat) : Nat := (x &&& y) ^^^ (x &&& z) ^^^ (y &&& z)

/-- SHA-256 padding of a message given as a byte list. -/
def sha256Pad (msg : List Nat) : List Nat :=
  let len := msg.length
  msg ++ [128] ++ List.replicate ((119 - len % 64) % 64) 0 ++ toBytesBE 8 (len * 8)

/-- Group bytes into 32-bit big-endian words. -/
def bytesToWords : List Nat → List Nat
  | b0 :: b1 :: b2 :: b3 :: rest =>
      (b0 * 16777216 + b1 * 65536 + b2 * 256 + b3) :: bytesToWords rest
  | _ => []

/-- Split a byte list into 64-byte blocks (`fuel` bounds the recursion). -/
def toBlocksAux : Nat → List Nat → List (List Nat)
  | 0, _ => []
  | fuel + 1, l => if l = [] then [] else l.take 64 :: toBlocksAux fuel (l.drop 64)

def toBlocks (l : List Nat) : List (List Nat) := toBlocksAux l.length l

/-- Extend the 16-word schedule by `n` further words. -/
def extendW : Nat → List Nat → List Nat
  | 0, w => w
  | n + 1, w =>
      let m := w.length
      extendW n (w ++ [wmask (sigma1 (w.getD (m - 2) 0) + w.getD (m - 7) 0 +
        sigma0 (w.getD (m - 15) 0) + w.getD (m - 16) 0)])

def Sha256St := Nat × Nat × Nat × Nat × Nat × Nat × Nat × Nat

def sha256Round (k w : Nat) (s : Sha256St) : Sha256St :=
  let (a, b, c, d, e, f, g, h) := s
  let t1 := h + bigSigma1 e + chFn e f g + k + w
  let t2 := bigSigma0 a + majFn a b c
  (wmask (t1 + t2), a, b, c, wmask (d + t1), e, f, g)

def sha256Block (h : List Nat) (block : List Nat) : List Nat :=
  let w := extendW 48 (bytesToWords block)
  let s0 : Sha256St :=
    (h.getD 0 0, h.getD 1 0, h.getD 2 0, h.getD 3 0,
     h.getD 4 0, h.getD 5 0, h.getD 6 0, h.getD 7 0)
  let r := (sha256K.zip w).foldl (fun s kw => sha256Round kw.1 kw.2 s) s0
  let (a, b, c, d, e, f, g, h8) := r
  [wmask (h.getD 0 0 + a), wmask (h.getD 1 0 + b), wmask (h.getD 2 0 + c),
   wmask (h.getD 3 0 + d), wmask (h.getD 4 0 + e), wmask (h.getD 5 0 + f),
   wmask (h.getD 6 0 + g), wmask (h.getD 7 0 + h8)]

/-- SHA-256 digest (32 bytes) of a byte list. -/
def sha256 (msg : List Nat) : List Nat :=
  ((toBlocks (sha256Pad msg)).foldl sha256Block sha256H0).map (toBytesBE 4) |>.flatten

/-- Lower-case hex SHA-256 digest of a byte list, as Go's
`hex.EncodeToString(sha256.Sum256(b))`. -/
def sha256Hex (msg : List Nat) : String := bytesToHex (sha256 msg)

/-! ## HMAC-SHA256 -/

/-- HMAC-SHA256 digest, as Go's `hmac.New(sha256.New, key)`. -/
def hmacSha256 (key msg : List Nat) : List Nat :=
  let k0 := if 64 < key.length then sha256 key else key
  let kpad := k0 ++ List.replicate (64 - k0.length) 0
  sha256 ((kpad.map (fun b => b ^^^ 92)) ++ sha256 ((kpad.map (fun b => b ^^^ 54)) ++ msg))

/-- Lower-case hex HMAC-SHA256 of string key and string message. -/
def hmacHex (key msg : String) : String := bytesToHex (hmacSha256 (strBytes key) (strBytes msg))

/-! ## Modular exponentiation (Go `math/big` `Exp`) -/

def powModAux : Nat → Nat → Nat → Nat → Nat
  | 0, _, _, n => 1 % n
  | fuel + 1, b, e, n =>
    if e = 0 then 1 % n
    else
      let r := powModAux fuel (b * b % n) (e / 2) n
      if e % 2 = 1 then r * b % n else r

/-- `powMod b e n = b ^ e % n`, computed by binary exponentiation so that it
evaluates on 256-bit exponents; Go's `z.Exp(b, e, n)` for nonnegative inputs. -/
def powMod (b e n : Nat) : Nat := powModAux e b e n

/-! ## Decimal formatting (Go `fmt` `%d`) -/

def digitChar (n : Nat) : Char := Char.ofNat (48 + n)

def natToStrAux : Nat → Nat → List Char
  | 0, _ => []
  | fuel + 1, n => if n < 10 then [digitChar n] else natToStrAux fuel (n / 10) ++ [digitChar (n % 10)]

def natToStr (n : Nat) : String := String.mk (natToStrAux (n + 1) n)

def intToStr : Int → String
  | .ofNat n => natToStr n
  | .negSucc n => ("-") ++ natToStr (n + 1)

/-- Go's `string(i)` conversion of an integer: the UTF-8 encoding of the code
point numbered `i`, or U+FFFD when `i` is negative, a surrogate, or above
0x10FFFF.  This is *not* the decimal representation. -/
def goStringOfInt (i : Int) : List Nat :=
  match i with
  | .negSucc _ => [239, 191, 189]
  | .ofNat n =>
    if n < 55296 then utf8Bytes n
    else if n < 57344 then [239, 191, 189]
    else if n < 1114112 then utf8Bytes n
    else [239, 191, 189]

/-! ## Block and chain (`block.go`, part_003) -/

structure Block where
  Index : Int
  Timestamp : String
  Data : String
  PrevHash : String
  Hash : String
deriving DecidableEq

def defaultBlock : Block :=
  { Index := 0, Timestamp := (""), Data := (""), PrevHash := (""), Hash := ("") }

/-- Go builds `string(block.Index) + block.Timestamp + block.Data + block.PrevHash`
and hashes it; `string(Index)` is the rune conversion, see `goStringOfInt`. -/
def calculateHash (block : Block) : String :=
  sha256Hex (goStringOfInt block.Index ++ strBytes block.Timestamp ++
    strBytes block.Data ++ strBytes block.PrevHash)

def GenerateBlock (prevBlock : Block) (data ts : String) : Block :=
  let newBlock : Block :=
    { Index := prevBlock.Index + 1, Timestamp := ts, Data := data
      PrevHash := prevBlock.Hash, Hash := ("") }
  { newBlock with Hash := calculateHash newBlock }

def GenesisBlock (ts : String) : Block :=
  let genesis : Block :=
    { Index := 0, Timestamp := ts, Data := ("Genesis Block"), PrevHash := (""), Hash := ("") }
  { genesis with Hash := calculateHash genesis }

structure Blockchain where
  Blocks : List Block
deriving DecidableEq

def NewBlockchain (ts : String) : Blockchain := { Blocks := [GenesisBlock ts] }

/-- Appends a generated block; Go reads `bc.Blocks[len-1]`, which never sees an
empty chain because construction seeds the genesis block. -/
def Blockchain.AddBlock (bc : Blockchain) (data ts : String) : Blockchain :=
  let prevBlock := bc.Blocks.getLastD defaultBlock
  { Blocks := bc.Blocks ++ [GenerateBlock prevBlock data ts] }

/-- A chain built from the genesis timestamp and a list of (data, timestamp)
append operations. -/
def buildChain (gts : String) (ops : List (String × String)) : Blockchain :=
  ops.foldl (fun bc op => bc.AddBlock op.1 op.2) (NewBlockchain gts)

/-! ## Merkle tree (`merkle_tree.go`) -/

structure MerkleTree where
  Root : String
  Leaves : List String
deriving DecidableEq

/-- One level of `buildMerkleTree`: hash adjacent pairs of hex strings; an odd
trailing node is rehashed alone (the Go code does not promote it unchanged). -/
def pairUp : List String → List String
  | x :: y :: rest => sha256Hex (strBytes x ++ strBytes y) :: pairUp rest
  | [x] => [sha256Hex (strBytes x)]
  | [] => []

def buildMerkleAux : Nat → List String → String
  | 0, _ => sha256Hex []
  | fuel + 1, l =>
    match l with
    | [] => sha256Hex []
    | [x] => x
    | xs => buildMerkleAux fuel (pairUp xs)

/-- `buildMerkleTree` of the Go code; the fuel (the leaf count) dominates the
recursion depth, which halves the list each round. -/
def buildMerkleTree (leaves : List String) : String := buildMerkleAux leaves.length leaves

def NewMerkleTree (data : List String) : MerkleTree :=
  if data = [] then { Root := sha256Hex [], Leaves := [] }
  else
    let leaves := data.map (fun d => sha256Hex (strBytes d))
    { Root := buildMerkleTree leaves, Leaves := leaves }

def MerkleTree.GetRootHash (mt : MerkleTree) : String := mt.Root

/-! ## Shard (part_001) -/

structure Shard where
  ID : Int
  Blocks : List Block
  Tree : Option MerkleTree
deriving DecidableEq

def NewShard (id : Int) : Shard := { ID := id, Blocks := [], Tree := none }

def getDataStrings (blocks : List Block) : List String := blocks.map (·.Data)

def Shard.AddBlock (s : Shard) (block : Block) : Shard :=
  let blocks := s.Blocks ++ [block]
  { s with Blocks := blocks, Tree := some (NewMerkleTree (getDataStrings blocks)) }

def Shard.GetRoot (s : Shard) : String :=
  match s.Tree with
  | some t => t.GetRootHash
  | none => ("")

/-! ## Red-black shard index (part_000)

The Go tree manipulates nodes through parent pointers; the embedding uses the
equivalent zipper representation: `descendAux` records the path walked by the
BST insertion loop and `fixIns` replays `fixInsert`, whose reads and writes of
`Parent`/`Parent.Parent` become case analysis on the two innermost path
frames.  The `Nil` sentinel is the `nil` constructor; its stored colour is
black and the code never recolours it (the red-uncle branch only writes black
to a node it has just tested red). -/

inductive RBTree where
  | nil : RBTree
  | node (color : Bool) (shard : Shard) (left : RBTree) (right : RBTree) : RBTree

def RBRed : Bool := true
def RBBlack : Bool := false

/-- One step of the parent path: the current node is the left (`leftF`) or
right (`rightF`) child of a parent with the recorded colour, shard and other
child. -/
inductive RBFrame where
  | leftF (color : Bool) (shard : Shard) (sib : RBTree)
  | rightF (color : Bool) (shard : Shard) (sib : RBTree)

def plugFrame (t : RBTree) : RBFrame → RBTree
  | .leftF c s sib => .node c s t sib
  | .rightF c s sib => .node c s sib t

/-- Rebuild the whole tree from a subtree and its path to the root. -/
def plugZ (t : RBTree) : List RBFrame → RBTree
  | [] => t
  | f :: z => plugZ (plugFrame t f) z

/-- The BST descent of `Insert`: duplicate keys go to the right. -/
def descendAux (s : Shard) : RBTree → List RBFrame → List RBFrame
  | .nil, z => z
  | .node c x l r, z =>
      if s.ID < x.ID then descendAux s l (.leftF c x r :: z)
      else descendAux s r (.rightF c x l :: z)

def frameColor : RBFrame → Bool
  | .leftF c _ _ => c
  | .rightF c _ _ => c

def isRed : RBTree → Bool
  | .node c _ _ _ => c
  | .nil => false

def recolorBlack : RBTree → RBTree
  | .nil => .nil
  | .node _ s l r => .node RBBlack s l r

/-- The parent node rebuilt around the current subtree `t`, recoloured black
(`node.Parent.Color = Black` of the red-uncle branch). -/
def parentBlack (f : RBFrame) (t : RBTree) : RBTree :=
  match f with
  | .leftF _ ps psib => .node RBBlack ps t psib
  | .rightF _ ps psib => .node RBBlack ps psib t

/-- `fixInsert`: the current (always red) subtree `t` plus its path.  The loop
guard `node.Parent.Color == Red` is the colour test on the head frame; the
`node.Parent == node.Parent.Parent.Left` test is the constructor of the second
frame; rotations are re-expressed as the subtree each case plugs back.  A red
parent that is itself the root cannot arise (the root is blackened after every
insertion); that branch just plugs the tree back. -/
def fixIns : List RBFrame → RBTree → RBTree
  | [], t => t
  | f :: z, t =>
    if frameColor f = RBRed then
      match z with
      | [] => plugZ t [f]
      | g :: z' =>
        match g with
        | .leftF _gc gs guncle =>
          if isRed guncle then
            fixIns z' (.node RBRed gs (parentBlack f t) (recolorBlack guncle))
          else
            match f with
            | .leftF _pc ps psib =>
              plugZ (.node RBBlack ps t (.node RBRed gs psib guncle)) z'
            | .rightF pc ps psib =>
              match t with
              | .nil => plugZ t (f :: g :: z')
              | .node _tc tsh tl tr =>
                plugZ (.node RBBlack tsh (.node pc ps psib tl)
                  (.node RBRed gs tr guncle)) z'
        | .rightF _gc gs guncle =>
          if isRed guncle then
            fixIns z' (.node RBRed gs (recolorBlack guncle) (parentBlack f t))
          else
            match f with
            | .rightF _pc ps psib =>
              plugZ (.node RBBlack ps (.node RBRed gs guncle psib) t) z'
            | .leftF pc ps psib =>
              match t with
              | .nil => plugZ t (f :: g :: z')
              | .node _tc tsh tl tr =>
                plugZ (.node RBBlack tsh (.node RBRed gs guncle tl)
                  (.node pc ps tr psib)) z'
    else plugZ t (f :: z)

def blackenRoot : RBTree → RBTree
  | .nil => .nil
  | .node _ s l r => .node RBBlack s l r

def RBTree.Insert (t : RBTree) (shard : Shard) : RBTree :=
  blackenRoot (fixIns (descendAux shard t []) (.node RBRed shard .nil .nil))

def RBTree.inorder : RBTree → List Shard
  | .nil => []
  | .node _ s l r => l.inorder ++ s :: r.inorder

def RBTree.GetAllShards (t : RBTree) : List Shard := t.inorder

/-! ## Shard manager (part_001) -/

def MaxBlocksPerShard : Nat := 3
def MinBlocksPerShard : Nat := 2

structure ShardManager where
  Shards : RBTree

def NewShardManager : ShardManager := { Shards := RBTree.nil.Insert (NewShard 0) }

/-- Go mutates `shards[len(shards)-1]` (the rightmost node's shard) in place;
the tree shape is untouched. -/
def updateLastShard (f : Shard → Shard) : RBTree → RBTree
  | .nil => .nil
  | .node c s l .nil => .node c (f s) l .nil
  | .node c s l r => .node c s l (updateLastShard f r)

/-- The left half of a split: the original shard keeps its ID, takes the
first `mid` blocks and gets a rebuilt Merkle tree. -/
def splitLeft (shard : Shard) : Shard :=
  let leftBlocks := shard.Blocks.take (shard.Blocks.length / 2)
  { shard with
    Blocks := leftBlocks
    Tree := some (NewMerkleTree (getDataStrings leftBlocks)) }

/-- The right half of a split: a new shard with ID `counter` receiving the
remaining blocks one `AddBlock` at a time. -/
def splitRight (counter : Int) (shard : Shard) : Shard :=
  (shard.Blocks.drop (shard.Blocks.length / 2)).foldl (fun s b => s.AddBlock b) (NewShard counter)

def ShardManager.RebalanceShards (sm : ShardManager) : ShardManager :=
  let currentShards := sm.Shards.GetAllShards
  let res := currentShards.foldl (fun (acc : RBTree × Int) shard =>
    if MaxBlocksPerShard < shard.Blocks.length then
      ((acc.1.Insert (splitLeft shard)).Insert (splitRight acc.2 shard), acc.2 + 1)
    else (acc.1.Insert shard, acc.2))
    (RBTree.nil, (currentShards.length : Int))
  { Shards := res.1 }

/-- The (ordered) list of shards the rebalance pass inserts into the rebuilt
tree, starting from counter `c`: split shards are replaced by their two
halves. -/
def rebalanceExpand : List Shard → Int → List Shard
  | [], _ => []
  | shard :: rest, counter =>
    if MaxBlocksPerShard < shard.Blocks.length then
      splitLeft shard :: splitRight counter shard :: rebalanceExpand rest (counter + 1)
    else shard :: rebalanceExpand rest counter

/-- Go indexes `shards[len(shards)-1]`; on an empty enumeration it panics
(`none`). -/
def ShardManager.DistributeBlock (sm : ShardManager) (block : Block) : Option ShardManager :=
  if sm.Shards.GetAllShards = [] then none
  else some (ShardManager.RebalanceShards
    { Shards := updateLastShard (fun s => s.AddBlock block) sm.Shards })

def mergedShard (current next : Shard) : Shard :=
  let blocks := current.Blocks ++ next.Blocks
  { ID := current.ID, Blocks := blocks
    Tree := some (NewMerkleTree (getDataStrings blocks)) }

/-- The `used`-map scan of `MergeShards`: an index pair (i, i+1) is consumed
together when shard i is below the threshold, otherwise shard i is kept and
the scan moves to i+1. -/
def mergePassAux : Nat → Int → List Shard → List Shard
  | 0, _, _ => []
  | _, _, [] => []
  | _ + 1, _, [current] => [current]
  | fuel + 1, threshold, current :: next :: rest2 =>
    if (current.Blocks.length : Int) < threshold then
      mergedShard current next :: mergePassAux fuel threshold rest2
    else current :: mergePassAux fuel threshold (next :: rest2)

def mergePass (threshold : Int) (shards : List Shard) : List Shard :=
  mergePassAux shards.length threshold shards

def ShardManager.MergeShards (sm : ShardManager) (threshold : Int) : ShardManager :=
  { Shards := (mergePass threshold sm.Shards.GetAllShards).foldl
      (fun t s => t.Insert s) RBTree.nil }

/-- States reachable by `DistributeBlock` and `RebalanceShards` alone. -/
inductive ReachDR : ShardManager → Prop
  | init : ReachDR NewShardManager
  | distribute {sm sm' : ShardManager} (b : Block) :
      ReachDR sm → sm.DistributeBlock b = some sm' → ReachDR sm'
  | rebalance {sm : ShardManager} : ReachDR sm → ReachDR sm.RebalanceShards

/-- States reachable by `DistributeBlock`, `RebalanceShards` and `MergeShards`. -/
inductive ReachOps : ShardManager → Prop
  | init : ReachOps NewShardManager
  | distribute {sm sm' : ShardManager} (b : Block) :
      ReachOps sm → sm.DistributeBlock b = some sm' → ReachOps sm'
  | rebalance {sm : ShardManager} : ReachOps sm → ReachOps sm.RebalanceShards
  | merge {sm : ShardManager} (threshold : Int) :
      ReachOps sm → ReachOps (sm.MergeShards threshold)

/-- The IDs the rebalance pass hands to shards it creates by splitting,
starting from the given counter (`shardIDCounter`). -/
def rebalanceSplitIDs : Int → List Shard → List Int
  | _, [] => []
  | counter, shard :: rest =>
    if MaxBlocksPerShard < shard.Blocks.length then
      counter :: rebalanceSplitIDs (counter + 1) rest
    else rebalanceSplitIDs counter rest

/-- The IDs assigned to split-created shards during `DistributeBlock b` on
`sm`: the rebalance runs on the enumeration with the block appended to the
last shard, with the counter starting at the shard count. -/
def distributeSplitIDs (sm : ShardManager) (b : Block) : List Int :=
  let cur := (updateLastShard (fun s => s.AddBlock b) sm.Shards).GetAllShards
  rebalanceSplitIDs (cur.length : Int) cur

/-- Every shard of the enumeration holds at most `MaxBlocksPerShard` blocks. -/
def shardSizesOK (sm : ShardManager) : Prop :=
  ∀ s ∈ sm.Shards.GetAllShards, s.Blocks.length ≤ MaxBlocksPerShard

/-- The IDs in the enumeration are pairwise distinct. -/
def shardIDsDistinct (sm : ShardManager) : Prop :=
  (sm.Shards.GetAllShards.map Shard.ID).Pairwise (fun a b => a ≠ b)

/-- Any shard a `DistributeBlock` split would create gets an ID strictly
greater than every current shard ID. -/
def splitIDsFresh (sm : ShardManager) : Prop :=
  ∀ b : Block, ∀ nid ∈ distributeSplitIDs sm b, ∀ s ∈ sm.Shards.GetAllShards, s.ID < nid

/-- The inductive invariant for distribute/rebalance traces: the enumeration's
IDs are exactly 0..n-1 and every shard respects the block bound. -/
def InvDR (sm : ShardManager) : Prop :=
  ∃ n : Nat, 0 < n ∧
    sm.Shards.GetAllShards.map Shard.ID = (List.range n).map Int.ofNat ∧
    ∀ s ∈ sm.Shards.GetAllShards, s.Blocks.length ≤ MaxBlocksPerShard

/-! ## Succinct trie (part_001)

`TrieNode.Children` is a `map[byte]*TrieNode`; it is embedded as an
association list in insertion order.  Only the node hashes depend on the
iteration order (Go iterates maps in unspecified order), so the embedding
fixes one order; `Insert`/`Get` results are order-independent. -/

mutual
inductive TrieNode where
  | mk (Children : TrieChildren) (Value : String) (Hash : String) : TrieNode
inductive TrieChildren where
  | nil : TrieChildren
  | cons (b : Nat) (t : TrieNode) (rest : TrieChildren) : TrieChildren
end

def TrieNode.Children : TrieNode → TrieChildren
  | .mk cs _ _ => cs

def TrieNode.Value : TrieNode → String
  | .mk _ v _ => v

def TrieNode.Hash : TrieNode → String
  | .mk _ _ h => h

def childGet : TrieChildren → Nat → Option TrieNode
  | .nil, _ => none
  | .cons b t rest, k => if k = b then some t else childGet rest k

def childSet : TrieChildren → Nat → TrieNode → TrieChildren
  | .nil, k, v => .cons k v .nil
  | .cons b t rest, k, v => if k = b then .cons b v rest else .cons b t (childSet rest k v)

structure SuccinctTrie where
  Root : TrieNode

def NewSuccinctTrie : SuccinctTrie := { Root := .mk .nil ("") ("") }

/-- The path walk of `Insert`: create missing children along the key bytes and
store the value at the terminal node. -/
def insertValue : TrieNode → List Nat → String → TrieNode
  | .mk cs _v h, [], value => .mk cs value h
  | .mk cs v h, b :: key, value =>
      let child := match childGet cs b with
        | some c => c
        | none => TrieNode.mk .nil ("") ("")
      .mk (childSet cs b (insertValue child key value)) v h

/-- The per-node data of `computeNodeHash`: value bytes, then for every child
the Go `string(b)` rune encoding of the byte followed by the child hash. -/
def childrenData : TrieChildren → List Nat
  | .nil => []
  | .cons b t rest => utf8Bytes b ++ strBytes t.Hash ++ childrenData rest

def computeHashCV (cs : TrieChildren) (v : String) : String :=
  sha256Hex (strBytes v ++ childrenData cs)

def computeNodeHash (node : TrieNode) : String := computeHashCV node.Children node.Value

mutual
def updateHashes : TrieNode → TrieNode
  | .mk cs v _h =>
    let cs' := updateChildrenHashes cs
    .mk cs' v (computeHashCV cs' v)
def updateChildrenHashes : TrieChildren → TrieChildren
  | .nil => .nil
  | .cons b t rest => .cons b (updateHashes t) (updateChildrenHashes rest)
end

/-- `Insert` stores the value (the terminal hash it writes is immediately
recomputed) and re-hashes the whole tree bottom-up. -/
def SuccinctTrie.Insert (st : SuccinctTrie) (key value : String) : SuccinctTrie :=
  { Root := updateHashes (insertValue st.Root (strBytes key) value) }

def getB : TrieNode → List Nat → String × Bool
  | n, [] => if n.Value = ("") then (("") , false) else (n.Value, true)
  | n, b :: key =>
    match childGet n.Children b with
    | some c => getB c key
    | none => (("") , false)

def SuccinctTrie.Get (st : SuccinctTrie) (key : String) : String × Bool :=
  getB st.Root (strBytes key)

def SuccinctTrie.GetMerkleRoot (st : SuccinctTrie) : String := st.Root.Hash

/-! ## RSA accumulator (`block.go`) -/

structure RSAAccumulator where
  N : Nat
  G : Nat
  State : Nat
  Elements : List String
  Proofs : List (String × Nat)
deriving DecidableEq

def NewRSAAccumulator : RSAAccumulator :=
  { N := 251 * 239, G := 3, State := 3, Elements := [], Proofs := [] }

/-- SHA-256 of the element read as a big-endian integer, forced odd. -/
def hashToPrime (data : String) : Nat :=
  let hashInt := (sha256 (strBytes data)).foldl (fun a b => a * 256 + b) 0
  if hashInt % 2 = 0 then hashInt + 1 else hashInt

def proofsSet : List (String × Nat) → String → Nat → List (String × Nat)
  | [], k, v => [(k, v)]
  | (k0, v0) :: rest, k, v =>
    if k = k0 then (k, v) :: rest else (k0, v0) :: proofsSet rest k v

def proofsGet : List (String × Nat) → String → Option Nat
  | [], _ => none
  | (k0, v0) :: rest, k => if k = k0 then some v0 else proofsGet rest k

/-- `AddElement`: raise the state to the element's prime, append the element,
and store a freshly computed witness for the *new* element only (the loop
skips entries equal to it); existing witnesses are left untouched. -/
def RSAAccumulator.AddElement (acc : RSAAccumulator) (element : String) : RSAAccumulator :=
  let prime := hashToPrime element
  let state' := powMod acc.State prime acc.N
  let elements' := acc.Elements ++ [element]
  let proof := elements'.foldl
    (fun p e => if e ≠ element then powMod p (hashToPrime e) acc.N else p) acc.G
  { acc with
    State := state'
    Elements := elements'
    Proofs := proofsSet acc.Proofs element proof }

def RSAAccumulator.VerifyMembership (acc : RSAAccumulator) (element : String) (proof : Nat) : Bool :=
  powMod proof (hashToPrime element) acc.N == acc.State

/-! ## State pruner (`merkle_tree.go`) -/

structure PruningPolicy where
  MaxHeight : Int
  RetentionCount : Int
  UseCheckpoints : Bool
deriving DecidableEq

structure IntegrityProof where
  RootHash : String
  PrunedCount : Int
  Timestamp : String
  Signature : String
deriving DecidableEq

def defaultIntegrityProof : IntegrityProof :=
  { RootHash := (""), PrunedCount := 0, Timestamp := (""), Signature := ("") }

structure StatePruner where
  policy : PruningPolicy
  integrityProofs : List IntegrityProof
  merkleRoot : String
  secretKey : String
deriving DecidableEq

def NewStatePruner (maxHeight retention : Int) (useCheckpoints : Bool) : StatePruner :=
  { policy := { MaxHeight := maxHeight, RetentionCount := retention
                UseCheckpoints := useCheckpoints }
    integrityProofs := [], merkleRoot := ("")
    secretKey := ("pruning-integrity-key") }

def createIntegrityProof (sp : StatePruner) (rootHash : String) (count : Int) (now : String) : IntegrityProof :=
  { RootHash := rootHash, PrunedCount := count, Timestamp := now
    Signature := sha256Hex (strBytes rootHash ++ strBytes (intToStr count) ++
      strBytes sp.secretKey) }

/-- The `prunableCount` local of `PruneBlockchain` as a function of the state;
Go's `%` truncates, hence `Int.tmod`. -/
def prunableCountOf (sp : StatePruner) (bc : Blockchain) : Int :=
  let p0 : Int := (bc.Blocks.length : Int) - sp.policy.RetentionCount
  if sp.policy.UseCheckpoints then p0 - Int.tmod p0 sp.policy.MaxHeight else p0

/-- `PruneBlockchain`; `none` models the two Go panics (`% 0` when checkpoints
are enabled with `MaxHeight = 0`, and indexing past the chain when
`RetentionCount` is negative). -/
def StatePruner.PruneBlockchain (sp : StatePruner) (bc : Blockchain) (now : String) :
    Option (Int × StatePruner × Blockchain) :=
  if (bc.Blocks.length : Int) ≤ sp.policy.RetentionCount then some (0, sp, bc)
  else
    if sp.policy.UseCheckpoints ∧ sp.policy.MaxHeight = 0 then none
    else
      let prunableCount := prunableCountOf sp bc
      if prunableCount ≤ 0 then some (0, sp, bc)
      else if (bc.Blocks.length : Int) < prunableCount then none
      else
        let k := prunableCount.toNat
        let rootHash := sha256Hex ((bc.Blocks.take k).map (fun b => strBytes b.Hash)).flatten
        let proof := createIntegrityProof sp rootHash prunableCount now
        some (prunableCount,
          { sp with
            integrityProofs := sp.integrityProofs ++ [proof]
            merkleRoot := rootHash },
          { Blocks := bc.Blocks.drop k })

def StatePruner.VerifyIntegrity (sp : StatePruner) (proof : IntegrityProof) : Bool :=
  sha256Hex (strBytes proof.RootHash ++ strBytes (intToStr proof.PrunedCount) ++
    strBytes sp.secretKey) == proof.Signature

def StatePruner.GetLatestProof (sp : StatePruner) : Option IntegrityProof :=
  sp.integrityProofs.getLast?

/-! ## Homomorphic authenticator and 2PC transfer (`homomorphic_auth.go`) -/

structure HomomorphicCommitment where
  Value : String
  Commitment : String
deriving DecidableEq

structure HomomorphicAuthenticator where
  key : String
deriving DecidableEq

def NewHomomorphicAuthenticator (key : String) : HomomorphicAuthenticator := { key := key }

def HomomorphicAuthenticator.AuthenticateData (ha : HomomorphicAuthenticator) (data : String) : String :=
  hmacHex ha.key data

def HomomorphicAuthenticator.VerifyAuthentication (ha : HomomorphicAuthenticator)
    (data commitment : String) : Bool :=
  commitment == ha.AuthenticateData data

def HomomorphicAuthenticator.CombineCommitments (ha : HomomorphicAuthenticator)
    (commitments : List HomomorphicCommitment) : HomomorphicCommitment :=
  let combinedValue := commitments.foldl (fun a c => a ++ c.Value) ("")
  let combinedData := commitments.foldl (fun a c => a ++ c.Commitment) ("")
  { Value := combinedValue, Commitment := ha.AuthenticateData combinedData }

/-- Go stores `*Shard` pointers in the transfer state; the commit path reads
only the caller-passed shards, so the embedding keeps the IDs plus the two
snapshot lists. -/
structure TransferState where
  SourceID : Int
  DestID : Int
  BlockIndex : Int
  Commitment : String
  Prepared : Bool
  SourceSnapshot : List Block
  DestSnapshot : List Block
deriving DecidableEq

structure EnhancedSyncManager where
  authenticator : HomomorphicAuthenticator
  pendingTransfers : List (String × TransferState)
deriving DecidableEq

def NewEnhancedSyncManager (key : String) : EnhancedSyncManager :=
  { authenticator := NewHomomorphicAuthenticator key, pendingTransfers := [] }

def pendingGet : List (String × TransferState) → String → Option TransferState
  | [], _ => none
  | (k0, v0) :: rest, k => if k = k0 then some v0 else pendingGet rest k

def pendingSet : List (String × TransferState) → String → TransferState →
    List (String × TransferState)
  | [], k, v => [(k, v)]
  | (k0, v0) :: rest, k, v =>
    if k = k0 then (k, v) :: rest else (k0, v0) :: pendingSet rest k v

def pendingErase : List (String × TransferState) → String → List (String × TransferState)
  | [], _ => []
  | (k0, v0) :: rest, k =>
    if k = k0 then pendingErase rest k else (k0, v0) :: pendingErase rest k

def transferID (sid did idx : Int) : String :=
  intToStr sid ++ ("-") ++ intToStr did ++ ("-") ++ intToStr idx

/-- `CreateAuthenticatedTransfer`: validate the index, commit to
`hash:data`, snapshot both shards, and run the prepare phase, which
re-verifies the commitment with the same authenticator; a failed prepare
deletes the entry again, leaving the manager unchanged. -/
def EnhancedSyncManager.CreateAuthenticatedTransfer (esm : EnhancedSyncManager)
    (source destination : Shard) (blockIndex : Int) : Bool × EnhancedSyncManager :=
  if blockIndex < 0 ∨ (source.Blocks.length : Int) ≤ blockIndex then (false, esm)
  else
    let block := source.Blocks.getD blockIndex.toNat defaultBlock
    let partialState := block.Hash ++ (":") ++ block.Data
    let commitment := esm.authenticator.AuthenticateData partialState
    let tid := transferID source.ID destination.ID blockIndex
    let ts : TransferState :=
      { SourceID := source.ID, DestID := destination.ID, BlockIndex := blockIndex
        Commitment := commitment, Prepared := false
        SourceSnapshot := source.Blocks, DestSnapshot := destination.Blocks }
    if esm.authenticator.VerifyAuthentication partialState commitment then
      let pt := pendingSet esm.pendingTransfers tid { ts with Prepared := true }
      (true, { esm with pendingTransfers := pt })
    else (false, esm)

/-- `SyncBlock`: move the indexed block, rebuild both trees; `none` is the
`false` return on an invalid index (nothing mutated). -/
def SyncBlock (source destination : Shard) (blockIndex : Int) : Option (Shard × Shard) :=
  if blockIndex < 0 ∨ (source.Blocks.length : Int) ≤ blockIndex then none
  else
    let block := source.Blocks.getD blockIndex.toNat defaultBlock
    let destination1 := destination.AddBlock block
    let sourceBlocks := source.Blocks.take blockIndex.toNat ++
      source.Blocks.drop (blockIndex.toNat + 1)
    some ({ source with
            Blocks := sourceBlocks
            Tree := some (NewMerkleTree (getDataStrings sourceBlocks)) },
          { destination1 with
            Tree := some (NewMerkleTree (getDataStrings destination1.Blocks)) })

/-- `VerifyAndApplyTransfer`: look up the pending entry; an unknown or
unprepared transfer, or an out-of-range index, returns false touching
nothing; otherwise verify the stored commitment against the current block
and either apply `SyncBlock` (deleting the entry) or roll both shards back
to their snapshots (also deleting the entry). -/
def EnhancedSyncManager.VerifyAndApplyTransfer (esm : EnhancedSyncManager)
    (source destination : Shard) (blockIndex : Int) :
    Bool × EnhancedSyncManager × Shard × Shard :=
  let tid := transferID source.ID destination.ID blockIndex
  match pendingGet esm.pendingTransfers tid with
  | none => (false, esm, source, destination)
  | some ts =>
    if ts.Prepared = false then (false, esm, source, destination)
    else if blockIndex < 0 ∨ (source.Blocks.length : Int) ≤ blockIndex then
      (false, esm, source, destination)
    else
      let block := source.Blocks.getD blockIndex.toNat defaultBlock
      let rolledBack :=
        (false,
         { esm with pendingTransfers := pendingErase esm.pendingTransfers tid },
         { source with
           Blocks := ts.SourceSnapshot
           Tree := some (NewMerkleTree (getDataStrings ts.SourceSnapshot)) },
         { destination with
           Blocks := ts.DestSnapshot
           Tree := some (NewMerkleTree (getDataStrings ts.DestSnapshot)) })
      if esm.authenticator.VerifyAuthentication (block.Hash ++ (":") ++ block.Data)
          ts.Commitment then
        match SyncBlock source destination blockIndex with
        | some (s', d') =>
          (true, { esm with pendingTransfers := pendingErase esm.pendingTransfers tid }, s', d')
        | none => rolledBack
      else rolledBack

/-! ## Specification-side helpers and concrete test states -/

/-- A trie filled by a sequence of `Insert (key, value)` operations. -/
def buildTrie (ops : List (String × String)) : SuccinctTrie :=
  ops.foldl (fun st op => st.Insert op.1 op.2) NewSuccinctTrie

/-- The value of the last operation writing byte-key `k`, if any. -/
def lookupLastB : List (List Nat × String) → List Nat → Option String
  | [], _ => none
  | (k0, v0) :: rest, k =>
    match lookupLastB rest k with
    | some v => some v
    | none => if k = k0 then some v0 else none

/-- An accumulator filled by a sequence of `AddElement` calls. -/
def addAll (acc : RSAAccumulator) (es : List String) : RSAAccumulator :=
  es.foldl (fun a e => a.AddElement e) acc

/-- A block literal for concrete test states (hash fields are free strings:
the shard, transfer and pruning code never recomputes them). -/
def mkTestBlock (i : Int) (d h : String) : Block :=
  { Index := i, Timestamp := (""), Data := d, PrevHash := (""), Hash := h }

/- C4 concrete chain -/
def c4chain : Blockchain := (NewBlockchain ("g")).AddBlock ("a") ("t")
def c4blk : Block := c4chain.Blocks.getD 1 defaultBlock
def c4gen : Block := c4chain.Blocks.getD 0 defaultBlock

/- C5 concrete commitments -/
def c5auth : HomomorphicAuthenticator := NewHomomorphicAuthenticator ("k")
def c5a : HomomorphicCommitment := { Value := ("A"), Commitment := ("x") }
def c5b : HomomorphicCommitment := { Value := ("B"), Commitment := ("y") }
def c5c : HomomorphicCommitment := { Value := ("C"), Commitment := ("z") }

/- C6 concrete trie -/
def c6trie : SuccinctTrie := NewSuccinctTrie.Insert ("a") ("")

/- C2 concrete accumulator -/
def c2acc : RSAAccumulator := (NewRSAAccumulator.AddElement ("a")).AddElement ("b")

/- C7 concrete pruner run -/
def c7bc : Blockchain :=
  { Blocks := (List.range 20).map (fun i => mkTestBlock (Int.ofNat i) ("d") (natToStr i)) }
def c7sp : StatePruner := NewStatePruner 5 10 true
def c7res : Int × StatePruner × Blockchain :=
  (c7sp.PruneBlockchain c7bc ("now")).getD (0, c7sp, c7bc)

/- C10 concrete stale pending entry -/
def c10ts : TransferState :=
  { SourceID := 1, DestID := 2, BlockIndex := 0, Commitment := (""), Prepared := true
    SourceSnapshot := [], DestSnapshot := [] }
def c10esm : EnhancedSyncManager :=
  { authenticator := NewHomomorphicAuthenticator ("k")
    pendingTransfers := [(transferID 1 2 0, c10ts)] }
def c10src : Shard := NewShard 1
def c10dst : Shard := NewShard 2

/- C1 concrete demo replay: a successful transfer with the right key, then the
same call sequence through a manager keyed "wrong-key" -/
def c1s0 : Shard := ((NewShard 0).AddBlock (mkTestBlock 1 ("a") ("h1"))).AddBlock (mkTestBlock 2 ("b") ("h2"))
def c1s1 : Shard := (NewShard 1).AddBlock (mkTestBlock 3 ("c") ("h3"))
def c1m1 : EnhancedSyncManager := NewEnhancedSyncManager ("secret-key-123")
def c1cr1 : Bool × EnhancedSyncManager := c1m1.CreateAuthenticatedTransfer c1s0 c1s1 0
def c1ap1 : Bool × EnhancedSyncManager × Shard × Shard :=
  c1cr1.2.VerifyAndApplyTransfer c1s0 c1s1 0
def c1s0' : Shard := c1ap1.2.2.1
def c1s1' : Shard := c1ap1.2.2.2
def c1m2 : EnhancedSyncManager := NewEnhancedSyncManager ("wrong-key")
def c1cr2 : Bool × EnhancedSyncManager := c1m2.CreateAuthenticatedTransfer c1s0' c1s1' 0
def c1ap2 : Bool × EnhancedSyncManager × Shard × Shard :=
  c1cr2.2.VerifyAndApplyTransfer c1s0' c1s1' 0

/- C3 concrete traces -/
def distOpt (osm : Option ShardManager) (b : Block) : Option ShardManager :=
  osm.bind (fun sm => sm.DistributeBlock b)

def c3blks : List Block :=
  [mkTestBlock 1 ("a") ("k1"), mkTestBlock 2 ("b") ("k2"), mkTestBlock 3 ("c") ("k3"),
   mkTestBlock 4 ("d") ("k4"), mkTestBlock 5 ("e") ("k5"), mkTestBlock 6 ("f") ("k6")]

/-- Six distributed blocks: three shards of two blocks each, IDs 0, 1, 2. -/
def c3sm6 : Option ShardManager := c3blks.foldl distOpt (some NewShardManager)

/-- Trace A: merge with threshold 3, then rebalance. -/
def c3smA : Option ShardManager := c3sm6.map (fun sm => (sm.MergeShards 3).RebalanceShards)

/-- Trace B: merge twice, then distribute a seventh block. -/
def c3smB : Option ShardManager :=
  (c3sm6.map (fun sm => (sm.MergeShards 3).MergeShards 5)).bind
    (fun sm => sm.DistributeBlock (mkTestBlock 7 ("g") ("k7")))


/-- The enumeration context to the left of a zipper hole. -/
def holeL : List RBFrame → List Shard
  | [] => []
  | .leftF _ _ _ :: z => holeL z
  | .rightF _ s sib :: z => holeL z ++ sib.inorder ++ [s]

/-- The enumeration context to the right of a zipper hole. -/
def holeR : List RBFrame → List Shard
  | [] => []
  | .leftF _ s sib :: z => s :: (sib.inorder ++ holeR z)
  | .rightF _ _ _ :: z => holeR z

/-! ## Theorems -/

theorem sha256_vector_empty :
    sha256Hex [] =
      ("e3b0c44298fc1c149afbf4c8996fb92427ae41e4649b934ca495991b7852b855") := by
  rfl

theorem sha256_vector_abc :
    sha256Hex (strBytes ("abc")) =
      ("ba7816bf8f01cfea414140de5dae2223b00361a396177a9cb410ff61f20015ad") := by
  rfl

theorem hmac_vector :
    hmacHex ("key") ("The quick brown fox jumps over the lazy dog") =
      ("f7bc83f430538424b13298e6aa6fb143ef4d59a14946175997479dbc2d1a3cd8") := by
  rfl

theorem powModAux_eq (fuel b e n : Nat) (he : e < 2 ^ fuel) :
    powModAux fuel b e n = b ^ e % n := by
  induction fuel generalizing b e with
  | zero =>
    have h0 : e = 0 := by simpa [Nat.lt_one_iff] using he
    simp [powModAux, h0]
  | succ f ih =>
    rw [powModAux]
    by_cases h0 : e = 0
    · simp [h0]
    · have h2 : 2 ^ (f + 1) = 2 * 2 ^ f := by ring
      have hlt : e / 2 < 2 ^ f := by omega
      rw [if_neg h0, ih (b * b % n) (e / 2) hlt, ← Nat.pow_mod]
      have hbb : (b * b) ^ (e / 2) = b ^ (2 * (e / 2)) := by
        rw [← pow_two, ← pow_mul]
      by_cases hodd : e % 2 = 1
      · have heq : 2 * (e / 2) + 1 = e := by omega
        rw [if_pos hodd, Nat.mod_mul_mod, hbb, ← pow_succ, heq]
      · have heq : 2 * (e / 2) = e := by omega
        rw [if_neg hodd, hbb, heq]

theorem powMod_eq (b e n : Nat) : powMod b e n = b ^ e % n :=
  powModAux_eq e b e n (Nat.lt_two_pow e)

theorem natToStr_tests : natToStr 0 = ("0") ∧ natToStr 120 = ("120") ∧
    intToStr (-7) = ("-7") ∧ intToStr 35 = ("35") := by
  refine ⟨rfl, rfl, rfl, rfl⟩

/-! ### C4: chain linkage and hash formula -/

theorem buildChain_append (gts : String) (ops : List (String × String)) (op : String × String) :
    buildChain gts (ops ++ [op]) = (buildChain gts ops).AddBlock op.1 op.2 := by
  simp [buildChain, List.foldl_append]

theorem buildChain_ne_nil (gts : String) (ops : List (String × String)) :
    (buildChain gts ops).Blocks ≠ [] := by
  induction ops using List.reverseRecOn with
  | nil => simp [buildChain, NewBlockchain]
  | append_singleton l op ih =>
    rw [buildChain_append]
    simp [Blockchain.AddBlock]

/-- C4 (amended): every appended block links to its predecessor's hash, and its
own hash is the SHA-256 of the concatenation of Go's `string(Index)` rune
encoding (not the decimal string), the timestamp, the data and the previous
hash. -/
theorem C4_chain_linkage_and_hash (gts : String) (ops : List (String × String))
    (i : Nat) (b p : Block)
    (hb : (buildChain gts ops).Blocks[i + 1]? = some b)
    (hp : (buildChain gts ops).Blocks[i]? = some p) :
    b.PrevHash = p.Hash ∧
    b.Hash = sha256Hex (goStringOfInt b.Index ++ strBytes b.Timestamp ++
      strBytes b.Data ++ strBytes b.PrevHash) := by
  induction ops using List.reverseRecOn generalizing i b p with
  | nil =>
    simp only [buildChain, List.foldl_nil, NewBlockchain] at hb
    simp at hb
  | append_singleton l op ih =>
    rw [buildChain_append] at hb hp
    simp only [Blockchain.AddBlock] at hb hp
    rcases lt_trichotomy (i + 1) (buildChain gts l).Blocks.length with hlt | heq | hgt
    · rw [List.getElem?_append_left (by omega)] at hb
      rw [List.getElem?_append_left (by omega)] at hp
      exact ih i b p hb hp
    · rw [List.getElem?_append_right (by omega)] at hb
      rw [List.getElem?_append_left (by omega : i < (buildChain gts l).Blocks.length)] at hp
      have hb' : GenerateBlock ((buildChain gts l).Blocks.getLastD defaultBlock) op.1 op.2 = b := by
        simpa [heq] using hb
      have hplast : (buildChain gts l).Blocks.getLastD defaultBlock = p := by
        have hne := buildChain_ne_nil gts l
        rw [List.getLastD_eq_getLast?, List.getLast?_eq_getElem?]
        have : (buildChain gts l).Blocks.length - 1 = i := by omega
        rw [this, hp]
        rfl
      subst hb'
      rw [hplast]
      constructor
      · rfl
      · rfl
    · rw [List.getElem?_append_right (by omega)] at hb
      rw [List.getElem?_eq_none (by simp; omega)] at hb
      exact Option.noConfusion hb

/-- C4 counterexample: the hash of the first appended block of a concrete
chain is not the SHA-256 over the decimal string of its index (the code hashes
the rune `string(Index)` instead). -/
theorem C4_counterexample :
    c4blk.Hash ≠ sha256Hex (strBytes (intToStr c4blk.Index) ++ strBytes c4blk.Timestamp ++
      strBytes c4blk.Data ++ strBytes c4blk.PrevHash) := by
  decide

theorem C4_witness :
    c4chain.Blocks[1]? = some c4blk ∧ c4chain.Blocks[0]? = some c4gen ∧
    (c4blk.PrevHash = c4gen.Hash ∧
     c4blk.Hash = sha256Hex (goStringOfInt c4blk.Index ++ strBytes c4blk.Timestamp ++
       strBytes c4blk.Data ++ strBytes c4blk.PrevHash)) :=
  ⟨rfl, rfl, C4_chain_linkage_and_hash ("g") [(("a"), ("t"))] 0 c4blk c4gen rfl rfl⟩

/-! ### C5: CombineCommitments structure -/

theorem strFoldl_shift (l : List String) (s : String) :
    l.foldl (· ++ ·) s = s ++ l.foldl (· ++ ·) ("") := by
  induction l generalizing s with
  | nil => simp
  | cons x xs ih =>
    rw [List.foldl_cons, List.foldl_cons, ih (s ++ x), ih (("") ++ x)]
    simp [String.append_assoc]

theorem foldl_append_join {α : Type} (f : α → String) (l : List α) :
    l.foldl (fun a x => a ++ f x) ("") = String.join (l.map f) := by
  rw [String.join, List.foldl_map]

/-- C5 (amended): combining is deterministic, the combined payload is the
concatenation of the member payloads (hence payload-associative), and the
combined MAC is the HMAC over the concatenation of the member MACs; the MAC
component itself is not associative. -/
theorem C5_combine_structure (ha : HomomorphicAuthenticator)
    (l : List HomomorphicCommitment) (a b c : HomomorphicCommitment) :
    (ha.CombineCommitments l).Value = String.join (l.map (·.Value)) ∧
    (ha.CombineCommitments l).Commitment =
      ha.AuthenticateData (String.join (l.map (·.Commitment))) ∧
    (ha.CombineCommitments [ha.CombineCommitments [a, b], c]).Value =
      (ha.CombineCommitments [a, ha.CombineCommitments [b, c]]).Value := by
  refine ⟨?_, ?_, ?_⟩
  · show l.foldl (fun a c => a ++ c.Value) ("") = _
    rw [foldl_append_join]
  · show ha.AuthenticateData (l.foldl (fun a c => a ++ c.Commitment) ("")) = _
    rw [foldl_append_join]
  · simp [HomomorphicAuthenticator.CombineCommitments, String.append_assoc]

/-- C5 counterexample: with key "k" and three concrete commitments the two
groupings disagree (their MAC components differ), so combining is not
associative as a `HomomorphicCommitment`-valued operation. -/
theorem C5_counterexample :
    c5auth.CombineCommitments [c5auth.CombineCommitments [c5a, c5b], c5c] ≠
      c5auth.CombineCommitments [c5a, c5auth.CombineCommitments [c5b, c5c]] := by
  decide

/-! ### C10: stale pending entry on invalid-index commit -/

/-- C10: a prepared transfer whose stored index is out of range at commit time
returns false and leaves the manager (including the pending-transfer table)
and both shards exactly as they were. -/
theorem C10_stale_pending_entry (esm : EnhancedSyncManager) (source destination : Shard)
    (blockIndex : Int) (ts : TransferState)
    (hlook : pendingGet esm.pendingTransfers
        (transferID source.ID destination.ID blockIndex) = some ts)
    (hprep : ts.Prepared = true)
    (hidx : blockIndex < 0 ∨ (source.Blocks.length : Int) ≤ blockIndex) :
    esm.VerifyAndApplyTransfer source destination blockIndex =
      (false, esm, source, destination) := by
  unfold EnhancedSyncManager.VerifyAndApplyTransfer
  simp only [hlook]
  rw [if_neg (by simp [hprep]), if_pos hidx]

theorem C10_witness :
    pendingGet c10esm.pendingTransfers (transferID c10src.ID c10dst.ID 0) = some c10ts ∧
    c10ts.Prepared = true ∧
    ((0 : Int) < 0 ∨ (c10src.Blocks.length : Int) ≤ 0) ∧
    c10esm.VerifyAndApplyTransfer c10src c10dst 0 = (false, c10esm, c10src, c10dst) :=
  ⟨by decide, rfl, Or.inr (by decide),
   C10_stale_pending_entry c10esm c10src c10dst 0 c10ts (by decide) rfl (Or.inr (by decide))⟩

/-! ### C7: prune-then-verify round trip -/

/-- C7: whenever `PruneBlockchain` returns a positive drop count, the latest
proof is exactly the proof this call appended, it verifies, and the drop count
is the retention difference, reduced to a checkpoint multiple when
`UseCheckpoints` is set. -/
theorem C7_prune_then_verify (sp : StatePruner) (bc : Blockchain) (now : String)
    (d : Int) (sp' : StatePruner) (bc' : Blockchain)
    (h : sp.PruneBlockchain bc now = some (d, sp', bc')) (hd : 0 < d) :
    sp'.GetLatestProof = some (sp'.integrityProofs.getLastD defaultIntegrityProof) ∧
    sp'.VerifyIntegrity (sp'.integrityProofs.getLastD defaultIntegrityProof) = true ∧
    sp'.integrityProofs =
      sp.integrityProofs ++ [sp'.integrityProofs.getLastD defaultIntegrityProof] ∧
    d = (if sp.policy.UseCheckpoints then
          ((bc.Blocks.length : Int) - sp.policy.RetentionCount) -
            Int.tmod ((bc.Blocks.length : Int) - sp.policy.RetentionCount) sp.policy.MaxHeight
        else (bc.Blocks.length : Int) - sp.policy.RetentionCount) := by
  simp only [StatePruner.PruneBlockchain] at h
  split at h
  · injection h with h2
    injection h2 with ha hb
    omega
  · split at h
    · exact Option.noConfusion h
    · split at h
      · injection h with h2
        injection h2 with ha hb
        omega
      · split at h
        · exact Option.noConfusion h
        · injection h with h2
          injection h2 with ha hb
          injection hb with hsp hbc
          subst ha hsp hbc
          refine ⟨?_, ?_, ?_, rfl⟩
          · simp [StatePruner.GetLatestProof, List.getLastD_eq_getLast?,
              List.getLast?_concat]
          · simp [List.getLastD_eq_getLast?, List.getLast?_concat,
              StatePruner.VerifyIntegrity, createIntegrityProof]
          · simp [List.getLastD_eq_getLast?, List.getLast?_concat]

theorem C7_witness :
    c7sp.PruneBlockchain c7bc ("now") = some (c7res.1, c7res.2.1, c7res.2.2) ∧
    (0 : Int) < c7res.1 ∧
    (c7res.2.1.GetLatestProof =
       some (c7res.2.1.integrityProofs.getLastD defaultIntegrityProof) ∧
     c7res.2.1.VerifyIntegrity (c7res.2.1.integrityProofs.getLastD defaultIntegrityProof) = true ∧
     c7res.2.1.integrityProofs =
       c7sp.integrityProofs ++ [c7res.2.1.integrityProofs.getLastD defaultIntegrityProof] ∧
     c7res.1 = (if c7sp.policy.UseCheckpoints then
          ((c7bc.Blocks.length : Int) - c7sp.policy.RetentionCount) -
            Int.tmod ((c7bc.Blocks.length : Int) - c7sp.policy.RetentionCount) c7sp.policy.MaxHeight
        else (c7bc.Blocks.length : Int) - c7sp.policy.RetentionCount)) :=
  ⟨rfl, by decide,
   C7_prune_then_verify c7sp c7bc ("now") c7res.1 c7res.2.1 c7res.2.2 rfl (by decide)⟩

/-! ### C6: succinct trie lookup, and C2: accumulator witnesses -/

theorem TrieChildren.myInduction (motive : TrieChildren → Prop) (hnil : motive .nil)
    (hcons : ∀ b t rest, motive rest → motive (.cons b t rest)) : ∀ cs, motive cs
  | .nil => hnil
  | .cons b t rest => hcons b t rest (TrieChildren.myInduction motive hnil hcons rest)

theorem childGet_childSet (cs : TrieChildren) (k : Nat) (v : TrieNode) (q : Nat) :
    childGet (childSet cs k v) q = if q = k then some v else childGet cs q := by
  induction cs using TrieChildren.myInduction with
  | hnil => simp only [childSet, childGet]
  | hcons b t rest ih =>
    simp only [childSet]
    by_cases hkb : k = b
    · subst hkb
      simp only [if_pos rfl, childGet]
      by_cases hq : q = k <;> simp [hq]
    · rw [if_neg hkb]
      simp only [childGet, ih]
      by_cases hqb : q = b <;> by_cases hqk : q = k <;> simp_all

theorem getB_empty : ∀ (l : List Nat) (h : String), getB (.mk .nil ("") h) l = (("") , false)
  | [], h => by simp [getB, TrieNode.Value]
  | b :: rest, h => by simp [getB, TrieNode.Children, childGet]

theorem updateHashes_Value : ∀ (n : TrieNode), (updateHashes n).Value = n.Value
  | .mk cs v h => by simp [updateHashes, TrieNode.Value]

theorem updateHashes_Children : ∀ (n : TrieNode),
    (updateHashes n).Children = updateChildrenHashes n.Children
  | .mk cs v h => by simp [updateHashes, TrieNode.Children]

theorem childGet_updateChildren (cs : TrieChildren) (q : Nat) :
    childGet (updateChildrenHashes cs) q = Option.map updateHashes (childGet cs q) := by
  induction cs using TrieChildren.myInduction with
  | hnil => simp [updateChildrenHashes, childGet]
  | hcons b t rest ih =>
    simp only [updateChildrenHashes, childGet, ih]
    by_cases hq : q = b <;> simp [hq]

theorem getB_updateHashes : ∀ (k : List Nat) (n : TrieNode), getB (updateHashes n) k = getB n k
  | [], n => by simp [getB, updateHashes_Value]
  | b :: rest, n => by
    simp only [getB, updateHashes_Children, childGet_updateChildren]
    cases childGet n.Children b with
    | none => rfl
    | some c => simp [getB_updateHashes rest c]

theorem getB_insertValue : ∀ (k : List Nat) (n : TrieNode) (v : String) (q : List Nat),
    getB (insertValue n k v) q =
      if q = k then (if v = ("") then (("") , false) else (v, true)) else getB n q
  | [], .mk cs v0 h, v, q => by
    cases q with
    | nil => simp [insertValue, getB, TrieNode.Value]
    | cons qb qs => simp [insertValue, getB, TrieNode.Children]
  | kb :: ks, .mk cs v0 h, v, q => by
    cases q with
    | nil => simp [insertValue, getB, TrieNode.Value]
    | cons qb qs =>
      simp only [insertValue, getB, TrieNode.Children, childGet_childSet]
      by_cases hqb : qb = kb
      · subst hqb
        rw [if_pos rfl]
        dsimp only
        rw [getB_insertValue ks _ v qs]
        by_cases hqs : qs = ks
        · subst hqs
          simp
        · rw [if_neg hqs, if_neg (by simp [hqs])]
          cases hcg : childGet cs qb with
          | none => simp [hcg, getB_empty]
          | some c => simp [hcg]
      · rw [if_neg hqb, if_neg (by simp [hqb])]

theorem lookupLastB_concat (l : List (List Nat × String)) (kb : List Nat) (v : String)
    (q : List Nat) :
    lookupLastB (l ++ [(kb, v)]) q = if q = kb then some v else lookupLastB l q := by
  induction l with
  | nil => simp [lookupLastB]
  | cons p l ih =>
    obtain ⟨k0, v0⟩ := p
    simp only [List.cons_append, lookupLastB, List.append_eq]
    rw [ih]
    by_cases hq : q = kb
    · simp [hq]
    · simp only [if_neg hq]

theorem buildTrie_append (ops : List (String × String)) (op : String × String) :
    buildTrie (ops ++ [op]) = (buildTrie ops).Insert op.1 op.2 := by
  simp [buildTrie, List.foldl_append]

/-- C6 (amended): `Get k` returns `(v, true)` where `v` is the value of the
last `Insert` with key `k` if and only if `k` was inserted and that last value
is non-empty; if `k` was never inserted, or its last value is the empty
string, `Get k` returns `("", false)`.  (Keys are compared as byte strings,
exactly as the Go code walks them.) -/
theorem C6_trie_get_last_value (ops : List (String × String)) (k : String) :
    (buildTrie ops).Get k =
      (match lookupLastB (ops.map (fun p => (strBytes p.1, p.2))) (strBytes k) with
       | some v => if v = ("") then (("") , false) else (v, true)
       | none => (("") , false)) := by
  induction ops using List.reverseRecOn with
  | nil =>
    show getB (.mk .nil ("") ("")) (strBytes k) = _
    rw [getB_empty]
    simp [lookupLastB]
  | append_singleton l op ih =>
    rw [buildTrie_append]
    show getB (updateHashes (insertValue (buildTrie l).Root (strBytes op.1) op.2)) (strBytes k) = _
    rw [getB_updateHashes, getB_insertValue, List.map_append, List.map_cons, List.map_nil,
      lookupLastB_concat]
    by_cases hk : strBytes k = strBytes op.1
    · simp only [if_pos hk]
    · simp only [if_neg hk]
      exact ih

/-- C6 counterexample: the key "a" IS inserted (with the empty string as
value), yet `Get "a"` returns `("", false)`, not `(value, true)`. -/
theorem C6_counterexample :
    c6trie.Get ("a") = (("") , false) ∧ c6trie.Get ("a") ≠ ((("")), true) :=
  ⟨by decide, by decide⟩

theorem addAll_append (acc : RSAAccumulator) (es : List String) (e : String) :
    addAll acc (es ++ [e]) = (addAll acc es).AddElement e := by
  simp [addAll, List.foldl_append]

theorem AddElement_N (acc : RSAAccumulator) (e : String) : (acc.AddElement e).N = acc.N := rfl

theorem AddElement_G (acc : RSAAccumulator) (e : String) : (acc.AddElement e).G = acc.G := rfl

theorem addAll_N (acc : RSAAccumulator) (es : List String) : (addAll acc es).N = acc.N := by
  induction es generalizing acc with
  | nil => rfl
  | cons x xs ih => simpa [addAll] using ih (acc.AddElement x)

theorem addAll_G (acc : RSAAccumulator) (es : List String) : (addAll acc es).G = acc.G := by
  induction es generalizing acc with
  | nil => rfl
  | cons x xs ih => simpa [addAll] using ih (acc.AddElement x)

theorem addAll_Elements (acc : RSAAccumulator) (es : List String) :
    (addAll acc es).Elements = acc.Elements ++ es := by
  induction es generalizing acc with
  | nil => simp [addAll]
  | cons x xs ih =>
    have := ih (acc.AddElement x)
    simp only [addAll, List.foldl_cons] at this ⊢
    rw [this]
    simp [RSAAccumulator.AddElement]

theorem addAll_State (acc : RSAAccumulator) (es : List String) :
    (addAll acc es).State =
      es.foldl (fun st x => powMod st (hashToPrime x) acc.N) acc.State := by
  induction es generalizing acc with
  | nil => rfl
  | cons x xs ih =>
    have := ih (acc.AddElement x)
    simp only [addAll, List.foldl_cons] at this ⊢
    rw [this]
    rfl

theorem foldl_powMod_skip (e : String) (N : Nat) (l : List String) (hl : ∀ x ∈ l, x ≠ e) :
    ∀ (g : Nat), l.foldl (fun p x => if x ≠ e then powMod p (hashToPrime x) N else p) g =
      l.foldl (fun p x => powMod p (hashToPrime x) N) g := by
  induction l with
  | nil => intro g; rfl
  | cons x xs ih =>
    intro g
    have hx : x ≠ e := hl x (by simp)
    simp only [List.foldl_cons, if_pos hx]
    exact ih (fun y hy => hl y (by simp [hy])) _

theorem proofsGet_set_self (P : List (String × Nat)) (k : String) (v : Nat) :
    proofsGet (proofsSet P k v) k = some v := by
  induction P with
  | nil => simp [proofsSet, proofsGet]
  | cons p rest ih =>
    obtain ⟨k0, v0⟩ := p
    by_cases hk : k = k0
    · simp [proofsSet, proofsGet, hk]
    · simp [proofsSet, proofsGet, hk, ih]

/-- C2 (amended): in any accumulator freshly filled by `AddElement` calls with
pairwise-fresh elements, the stored witness of the most recently added element
verifies; witnesses of earlier elements are not updated by later additions
(see the counterexample). -/
theorem C2_last_element_witness_verifies (es : List String) (e : String) (he : e ∉ es) :
    (addAll NewRSAAccumulator (es ++ [e])).VerifyMembership e
      ((proofsGet (addAll NewRSAAccumulator (es ++ [e])).Proofs e).getD 0) = true := by
  rw [addAll_append]
  set acc := addAll NewRSAAccumulator es with hacc
  have hw : (acc.AddElement e).Proofs = proofsSet acc.Proofs e
      ((acc.Elements ++ [e]).foldl
        (fun p x => if x ≠ e then powMod p (hashToPrime x) acc.N else p) acc.G) := rfl
  rw [RSAAccumulator.VerifyMembership, hw, proofsGet_set_self, Option.getD_some]
  have hE : acc.Elements = es := by
    rw [hacc, addAll_Elements]
    rfl
  have hskip : (acc.Elements ++ [e]).foldl
      (fun p x => if x ≠ e then powMod p (hashToPrime x) acc.N else p) acc.G =
      es.foldl (fun p x => powMod p (hashToPrime x) acc.N) acc.G := by
    rw [hE, List.foldl_append]
    simp only [List.foldl_cons, List.foldl_nil, ne_eq, not_true_eq_false, if_neg]
    rw [foldl_powMod_skip e acc.N es (fun x hx => fun hxe => he (hxe ▸ hx))]
    simp
  have hstate : acc.State = es.foldl (fun p x => powMod p (hashToPrime x) acc.N) acc.G := by
    rw [hacc, addAll_State, addAll_N, addAll_G]
    rfl
  have hSN : (acc.AddElement e).State = powMod acc.State (hashToPrime e) acc.N := rfl
  have hNN : (acc.AddElement e).N = acc.N := rfl
  rw [hSN, hNN, hskip, ← hstate]
  simp

/-- C2 counterexample: after adding "a" then "b", the stored witness of "a"
(still the generator, never updated) fails `VerifyMembership`. -/
theorem C2_counterexample :
    ("a") ∈ c2acc.Elements ∧
    c2acc.VerifyMembership ("a") ((proofsGet c2acc.Proofs ("a")).getD 0) = false := by
  refine ⟨by decide, by decide⟩

theorem C2_witness : (("b") ∉ [("a")]) ∧
    (addAll NewRSAAccumulator ([("a")] ++ [("b")])).VerifyMembership ("b")
      ((proofsGet (addAll NewRSAAccumulator ([("a")] ++ [("b")])).Proofs ("b")).getD 0) = true :=
  ⟨by decide, C2_last_element_witness_verifies [("a")] ("b") (by decide)⟩

/-! ### C1: wrong-key two-phase transfer -/

/-- C1 (code bug): replaying the demo's failure scenario, the manager keyed
"wrong-key" *succeeds*: `CreateAuthenticatedTransfer` returns true, and
`VerifyAndApplyTransfer` verifies the commitment with the same wrong-key
authenticator that produced it, so the commit returns **true** and moves the
block again — the shards do not revert to their pre-prepare sequences, contrary
to the claim and to the demo's own "should fail and rollback" expectation. -/
theorem C1_wrong_key_commit_succeeds :
    c1cr1.1 = true ∧ c1ap1.1 = true ∧
    c1cr2.1 = true ∧ c1ap2.1 = true ∧
    c1ap2.2.2.1.Blocks ≠ c1s0'.Blocks ∧
    c1ap2.2.2.2.Blocks ≠ c1s1'.Blocks := by
  refine ⟨rfl, rfl, rfl, rfl, by decide, by decide⟩

theorem inorder_plugZ : ∀ (z : List RBFrame) (t : RBTree),
    (plugZ t z).inorder = holeL z ++ t.inorder ++ holeR z
  | [], t => by simp [plugZ, holeL, holeR]
  | .leftF c s sib :: z, t => by
    simp [plugZ, plugFrame, inorder_plugZ z, holeL, holeR, RBTree.inorder]
  | .rightF c s sib :: z, t => by
    simp [plugZ, plugFrame, inorder_plugZ z, holeL, holeR, RBTree.inorder]

theorem inorder_recolorBlack (t : RBTree) : (recolorBlack t).inorder = t.inorder := by
  cases t <;> simp [recolorBlack, RBTree.inorder]

theorem inorder_parentBlack (f : RBFrame) (t : RBTree) :
    (parentBlack f t).inorder = holeL [f] ++ t.inorder ++ holeR [f] := by
  cases f <;> simp [parentBlack, RBTree.inorder, holeL, holeR]

theorem inorder_fixIns : ∀ (z : List RBFrame) (t : RBTree),
    (fixIns z t).inorder = (plugZ t z).inorder
  | [], t => rfl
  | f :: z, t => by
    rw [fixIns.eq_def]
    dsimp only
    by_cases hc : frameColor f = RBRed
    case neg => rw [if_neg hc]
    case pos =>
      rw [if_pos hc]
      cases z with
      | nil => rfl
      | cons g z2 =>
        cases g with
        | leftF gc gs guncle =>
          dsimp only
          by_cases hu : isRed guncle = true
          · rw [if_pos hu]
            rw [inorder_fixIns z2]
            rw [inorder_plugZ, inorder_plugZ]
            cases f <;>
              simp [RBTree.inorder, parentBlack, inorder_recolorBlack,
                plugFrame, holeL, holeR, plugZ, List.append_assoc]
          · rw [if_neg hu]
            cases f with
            | leftF pc ps psib =>
              dsimp only
              rw [inorder_plugZ, inorder_plugZ]
              simp [RBTree.inorder, plugZ, plugFrame, holeL, holeR, List.append_assoc]
            | rightF pc ps psib =>
              cases t with
              | nil => rfl
              | node tc tsh tl tr =>
                dsimp only
                rw [inorder_plugZ, inorder_plugZ]
                simp [RBTree.inorder, plugZ, plugFrame, holeL, holeR, List.append_assoc]
        | rightF gc gs guncle =>
          dsimp only
          by_cases hu : isRed guncle = true
          · rw [if_pos hu]
            rw [inorder_fixIns z2]
            rw [inorder_plugZ, inorder_plugZ]
            cases f <;>
              simp [RBTree.inorder, parentBlack, inorder_recolorBlack,
                plugFrame, holeL, holeR, plugZ, List.append_assoc]
          · rw [if_neg hu]
            cases f with
            | rightF pc ps psib =>
              dsimp only
              rw [inorder_plugZ, inorder_plugZ]
              simp [RBTree.inorder, plugZ, plugFrame, holeL, holeR, List.append_assoc]
            | leftF pc ps psib =>
              cases t with
              | nil => rfl
              | node tc tsh tl tr =>
                dsimp only
                rw [inorder_plugZ, inorder_plugZ]
                simp [RBTree.inorder, plugZ, plugFrame, holeL, holeR, List.append_assoc]

theorem inorder_blackenRoot (t : RBTree) : (blackenRoot t).inorder = t.inorder := by
  cases t <;> simp [blackenRoot, RBTree.inorder]

theorem inorder_descend_ge (s : Shard) : ∀ (t : RBTree) (z : List RBFrame),
    (∀ x ∈ t.inorder, x.ID ≤ s.ID) →
    (plugZ (.node RBRed s .nil .nil) (descendAux s t z)).inorder =
      holeL z ++ t.inorder ++ [s] ++ holeR z
  | .nil, z, _ => by
    simp [descendAux, inorder_plugZ, RBTree.inorder]
  | .node c x l r, z, hall => by
    have hx : x.ID ≤ s.ID := hall x (by simp [RBTree.inorder])
    rw [descendAux, if_neg (not_lt.mpr hx)]
    rw [inorder_descend_ge s r (.rightF c x l :: z)
      (fun y hy => hall y (by simp [RBTree.inorder, hy]))]
    simp [holeL, holeR, RBTree.inorder, List.append_assoc]

theorem length_inorder_descend (s : Shard) : ∀ (t : RBTree) (z : List RBFrame),
    (plugZ (.node RBRed s .nil .nil) (descendAux s t z)).inorder.length =
      (holeL z).length + t.inorder.length + 1 + (holeR z).length
  | .nil, z => by
    simp [descendAux, inorder_plugZ, RBTree.inorder]
    omega
  | .node c x l r, z => by
    rw [descendAux]
    by_cases hlt : s.ID < x.ID
    · rw [if_pos hlt, length_inorder_descend s l (.leftF c x r :: z)]
      simp [holeL, holeR, RBTree.inorder]
      omega
    · rw [if_neg hlt, length_inorder_descend s r (.rightF c x l :: z)]
      simp [holeL, holeR, RBTree.inorder]
      omega

theorem inorder_Insert_ge (t : RBTree) (s : Shard) (h : ∀ x ∈ t.inorder, x.ID ≤ s.ID) :
    (t.Insert s).inorder = t.inorder ++ [s] := by
  unfold RBTree.Insert
  rw [inorder_blackenRoot, inorder_fixIns, inorder_descend_ge s t [] h]
  simp [holeL, holeR]

theorem length_inorder_Insert (t : RBTree) (s : Shard) :
    (t.Insert s).inorder.length = t.inorder.length + 1 := by
  unfold RBTree.Insert
  rw [inorder_blackenRoot, inorder_fixIns, length_inorder_descend s t []]
  simp [holeL, holeR]

theorem inorder_foldl_Insert : ∀ (l : List Shard) (t : RBTree),
    (∀ x ∈ t.inorder, ∀ y ∈ l, x.ID ≤ y.ID) →
    List.Pairwise (fun a b => a.ID ≤ b.ID) l →
    (l.foldl (fun acc s => acc.Insert s) t).inorder = t.inorder ++ l
  | [], t, _, _ => by simp
  | s :: l, t, h1, h2 => by
    simp only [List.foldl_cons]
    have hins : (t.Insert s).inorder = t.inorder ++ [s] :=
      inorder_Insert_ge t s (fun x hx => h1 x hx s (by simp))
    rw [inorder_foldl_Insert l (t.Insert s) ?_ (List.Pairwise.of_cons h2), hins]
    · simp
    · intro x hx y hy
      rw [hins] at hx
      rcases List.mem_append.mp hx with hx1 | hx2
      · exact h1 x hx1 y (by simp [hy])
      · have : x = s := by simpa using hx2
        subst this
        exact List.rel_of_pairwise_cons h2 hy

theorem length_foldl_Insert : ∀ (l : List Shard) (t : RBTree),
    (l.foldl (fun acc s => acc.Insert s) t).inorder.length = t.inorder.length + l.length
  | [], t => by simp
  | s :: l, t => by
    simp only [List.foldl_cons]
    rw [length_foldl_Insert l (t.Insert s), length_inorder_Insert]
    simp
    omega

theorem inorder_updateLastShard (f : Shard → Shard) : ∀ (t : RBTree) (init : List Shard) (x : Shard),
    t.inorder = init ++ [x] → (updateLastShard f t).inorder = init ++ [f x]
  | .nil, init, x, h => by simp [RBTree.inorder] at h
  | .node c s l .nil, init, x, h => by
    simp only [RBTree.inorder] at h
    simp only [updateLastShard, RBTree.inorder]
    have h' : l.inorder ++ [s] = init ++ [x] := by simpa using h
    obtain ⟨h1, h2⟩ := List.append_inj' h' rfl
    have hx : s = x := by simpa using h2
    rw [h1, hx]
  | .node c s l (.node c2 s2 l2 r2), init, x, h => by
    have hr : (RBTree.node c2 s2 l2 r2).inorder ≠ [] := by simp [RBTree.inorder]
    have hdec : (RBTree.node c2 s2 l2 r2).inorder =
        (RBTree.node c2 s2 l2 r2).inorder.dropLast ++
          [(RBTree.node c2 s2 l2 r2).inorder.getLast hr] :=
      (List.dropLast_append_getLast hr).symm
    have hupd := inorder_updateLastShard f (.node c2 s2 l2 r2)
      (RBTree.node c2 s2 l2 r2).inorder.dropLast
      ((RBTree.node c2 s2 l2 r2).inorder.getLast hr) hdec
    show (RBTree.node c s l (updateLastShard f (.node c2 s2 l2 r2))).inorder = init ++ [f x]
    have hio : (RBTree.node c s l (.node c2 s2 l2 r2)).inorder =
        l.inorder ++ s :: (RBTree.node c2 s2 l2 r2).inorder := rfl
    rw [hio] at h
    have h2 : (l.inorder ++ s :: (RBTree.node c2 s2 l2 r2).inorder.dropLast) ++
        [(RBTree.node c2 s2 l2 r2).inorder.getLast hr] = init ++ [x] := by
      rw [List.append_assoc, ← h]
      congr 1
      simp only [List.cons_append]
      rw [← hdec]
    obtain ⟨h1, h3⟩ := List.append_inj' h2 rfl
    have hg : (RBTree.node c2 s2 l2 r2).inorder.getLast hr = x := by
      simpa using h3
    simp only [RBTree.inorder]
    rw [hupd, hg, ← h1]
    simp [List.append_assoc]

theorem length_inorder_updateLastShard (f : Shard → Shard) : ∀ (t : RBTree),
    (updateLastShard f t).inorder.length = t.inorder.length
  | .nil => rfl
  | .node c s l .nil => by simp [updateLastShard, RBTree.inorder]
  | .node c s l (.node c2 s2 l2 r2) => by
    show (RBTree.node c s l (updateLastShard f (.node c2 s2 l2 r2))).inorder.length = _
    simp only [RBTree.inorder, List.length_append, List.length_cons]
    rw [length_inorder_updateLastShard f (.node c2 s2 l2 r2)]
    simp [RBTree.inorder]

theorem mergePassAux_ne_nil : ∀ (fuel : Nat) (th : Int) (l : List Shard),
    l ≠ [] → mergePassAux (fuel + 1) th l ≠ []
  | fuel, th, [], h => absurd rfl h
  | fuel, th, [x], _ => by simp [mergePassAux]
  | fuel, th, x :: y :: rest, _ => by
    rw [mergePassAux]
    split <;> simp

theorem mergePass_ne_nil (th : Int) (l : List Shard) (h : l ≠ []) : mergePass th l ≠ [] := by
  unfold mergePass
  cases l with
  | nil => exact absurd rfl h
  | cons x xs =>
    show mergePassAux (xs.length + 1) th (x :: xs) ≠ []
    exact mergePassAux_ne_nil xs.length th (x :: xs) (by simp)

theorem length_rebalance_fold : ∀ (cur : List Shard) (t : RBTree) (c : Int),
    cur.length + t.inorder.length ≤
      (cur.foldl (fun acc shard => if MaxBlocksPerShard < shard.Blocks.length then
          ((acc.1.Insert (splitLeft shard)).Insert (splitRight acc.2 shard), acc.2 + 1)
        else (acc.1.Insert shard, acc.2)) (t, c)).1.inorder.length
  | [], t, c => by simp
  | shard :: rest, t, c => by
    simp only [List.foldl_cons]
    by_cases hs : MaxBlocksPerShard < shard.Blocks.length
    · rw [if_pos hs]
      have := length_rebalance_fold rest ((t.Insert (splitLeft shard)).Insert (splitRight c shard)) (c + 1)
      rw [length_inorder_Insert, length_inorder_Insert] at this
      simp only [List.length_cons]
      omega
    · rw [if_neg hs]
      have := length_rebalance_fold rest (t.Insert shard) c
      rw [length_inorder_Insert] at this
      simp only [List.length_cons]
      omega

theorem RebalanceShards_ne_nil (sm : ShardManager) (h : sm.Shards.GetAllShards ≠ []) :
    sm.RebalanceShards.Shards.GetAllShards ≠ [] := by
  have hlen := length_rebalance_fold sm.Shards.GetAllShards RBTree.nil
    ((sm.Shards.GetAllShards.length : Int))
  have hpos : 0 < sm.Shards.GetAllShards.length := List.length_pos.mpr h
  apply List.ne_nil_of_length_pos
  unfold ShardManager.RebalanceShards
  simp only [RBTree.GetAllShards] at hlen hpos ⊢
  have : (RBTree.nil.inorder).length = 0 := rfl
  omega

theorem reachOps_enum_ne_nil (sm : ShardManager) (h : ReachOps sm) :
    sm.Shards.GetAllShards ≠ [] := by
  induction h with
  | init => decide
  | @distribute smm smm' b hr hsome ih =>
    unfold ShardManager.DistributeBlock at hsome
    rw [if_neg ih] at hsome
    injection hsome with hsome
    rw [← hsome]
    apply RebalanceShards_ne_nil
    show (updateLastShard _ _).inorder ≠ []
    apply List.ne_nil_of_length_pos
    rw [length_inorder_updateLastShard]
    exact List.length_pos.mpr ih
  | @rebalance smm hr ih => exact RebalanceShards_ne_nil _ ih
  | @merge smm th hr ih =>
    show ((mergePass th smm.Shards.GetAllShards).foldl (fun t s => t.Insert s) RBTree.nil).inorder ≠ []
    apply List.ne_nil_of_length_pos
    rw [length_foldl_Insert]
    have hp : 0 < (mergePass th smm.Shards.GetAllShards).length :=
      List.length_pos.mpr (mergePass_ne_nil th _ ih)
    simp only [RBTree.inorder]
    omega

/-- C9: starting from `NewShardManager`, every sequence of `DistributeBlock`,
`RebalanceShards` and `MergeShards` calls leaves at least one shard in the
index, so `DistributeBlock`'s `shards[len(shards)-1]` access never indexes an
empty enumeration (the call always returns a state rather than panicking). -/
theorem C9_shard_index_never_empty (sm : ShardManager) (h : ReachOps sm) (b : Block) :
    sm.Shards.GetAllShards ≠ [] ∧ (sm.DistributeBlock b).isSome = true := by
  have hne := reachOps_enum_ne_nil sm h
  refine ⟨hne, ?_⟩
  unfold ShardManager.DistributeBlock
  rw [if_neg hne]
  rfl

theorem C9_witness :
    ReachOps (NewShardManager.MergeShards 2) ∧
    ((NewShardManager.MergeShards 2).Shards.GetAllShards ≠ [] ∧
     ((NewShardManager.MergeShards 2).DistributeBlock
        (mkTestBlock 1 ("a") ("h"))).isSome = true) :=
  ⟨ReachOps.merge 2 ReachOps.init,
   C9_shard_index_never_empty _ (ReachOps.merge 2 ReachOps.init) (mkTestBlock 1 ("a") ("h"))⟩

theorem AddBlock_ID (s : Shard) (b : Block) : (s.AddBlock b).ID = s.ID := rfl

theorem foldl_AddBlock_Blocks : ∀ (l : List Block) (s0 : Shard),
    (l.foldl (fun s b => s.AddBlock b) s0).Blocks = s0.Blocks ++ l
  | [], s0 => by simp
  | b :: l, s0 => by
    simp only [List.foldl_cons]
    rw [foldl_AddBlock_Blocks l (s0.AddBlock b)]
    simp [Shard.AddBlock]

theorem foldl_AddBlock_ID : ∀ (l : List Block) (s0 : Shard),
    (l.foldl (fun s b => s.AddBlock b) s0).ID = s0.ID
  | [], s0 => rfl
  | b :: l, s0 => by
    simp only [List.foldl_cons]
    rw [foldl_AddBlock_ID l (s0.AddBlock b), AddBlock_ID]

theorem splitLeft_ID (s : Shard) : (splitLeft s).ID = s.ID := rfl

theorem splitLeft_len (s : Shard) : (splitLeft s).Blocks.length = s.Blocks.length / 2 := by
  simp [splitLeft]
  omega

theorem splitRight_ID (c : Int) (s : Shard) : (splitRight c s).ID = c := by
  unfold splitRight
  rw [foldl_AddBlock_ID]
  rfl

theorem splitRight_len (c : Int) (s : Shard) :
    (splitRight c s).Blocks.length = s.Blocks.length - s.Blocks.length / 2 := by
  unfold splitRight
  rw [foldl_AddBlock_Blocks]
  simp [NewShard]

theorem rebalanceExpand_no_split : ∀ (l : List Shard) (c : Int),
    (∀ s ∈ l, s.Blocks.length ≤ MaxBlocksPerShard) → rebalanceExpand l c = l
  | [], c, _ => rfl
  | s :: l, c, h => by
    rw [rebalanceExpand, if_neg (by have := h s (by simp); omega)]
    rw [rebalanceExpand_no_split l c (fun x hx => h x (by simp [hx]))]

theorem rebalanceExpand_front : ∀ (l1 l2 : List Shard) (c : Int),
    (∀ s ∈ l1, s.Blocks.length ≤ MaxBlocksPerShard) →
    rebalanceExpand (l1 ++ l2) c = l1 ++ rebalanceExpand l2 c
  | [], l2, c, _ => by simp
  | s :: l1, l2, c, h => by
    simp only [List.cons_append]
    rw [rebalanceExpand, if_neg (by have := h s (by simp); omega)]
    rw [rebalanceExpand_front l1 l2 c (fun x hx => h x (by simp [hx]))]

theorem rebalanceSplitIDs_no_split : ∀ (l : List Shard) (c : Int),
    (∀ s ∈ l, s.Blocks.length ≤ MaxBlocksPerShard) → rebalanceSplitIDs c l = []
  | [], c, _ => rfl
  | s :: l, c, h => by
    rw [rebalanceSplitIDs, if_neg (by have := h s (by simp); omega)]
    exact rebalanceSplitIDs_no_split l c (fun x hx => h x (by simp [hx]))

theorem rebalanceSplitIDs_front : ∀ (l1 l2 : List Shard) (c : Int),
    (∀ s ∈ l1, s.Blocks.length ≤ MaxBlocksPerShard) →
    rebalanceSplitIDs c (l1 ++ l2) = rebalanceSplitIDs c l2
  | [], l2, c, _ => rfl
  | s :: l1, l2, c, h => by
    simp only [List.cons_append]
    rw [rebalanceSplitIDs, if_neg (by have := h s (by simp); omega)]
    exact rebalanceSplitIDs_front l1 l2 c (fun x hx => h x (by simp [hx]))

theorem rebalance_fold_inorder : ∀ (cur : List Shard) (t : RBTree) (c : Int),
    (∀ x ∈ t.inorder, ∀ y ∈ rebalanceExpand cur c, x.ID ≤ y.ID) →
    List.Pairwise (fun a b => a.ID ≤ b.ID) (rebalanceExpand cur c) →
    (cur.foldl (fun acc shard => if MaxBlocksPerShard < shard.Blocks.length then
        ((acc.1.Insert (splitLeft shard)).Insert (splitRight acc.2 shard), acc.2 + 1)
      else (acc.1.Insert shard, acc.2)) (t, c)).1.inorder = t.inorder ++ rebalanceExpand cur c
  | [], t, c, _, _ => by simp [rebalanceExpand]
  | shard :: rest, t, c, h1, h2 => by
    by_cases hs : MaxBlocksPerShard < shard.Blocks.length
    · have he : rebalanceExpand (shard :: rest) c =
          splitLeft shard :: splitRight c shard :: rebalanceExpand rest (c + 1) := by
        rw [rebalanceExpand, if_pos hs]
      rw [he] at h1 h2 ⊢
      simp only [List.foldl_cons, if_pos hs]
      have hsl : (t.Insert (splitLeft shard)).inorder = t.inorder ++ [splitLeft shard] :=
        inorder_Insert_ge t _ (fun x hx => h1 x hx _ (by simp))
      have hsr : ((t.Insert (splitLeft shard)).Insert (splitRight c shard)).inorder =
          (t.inorder ++ [splitLeft shard]) ++ [splitRight c shard] := by
        rw [← hsl]
        apply inorder_Insert_ge
        intro x hx
        rw [hsl] at hx
        rcases List.mem_append.mp hx with hx1 | hx2
        · exact h1 x hx1 _ (by simp)
        · have hxe : x = splitLeft shard := by simpa using hx2
          subst hxe
          exact List.rel_of_pairwise_cons h2 (by simp)
      rw [rebalance_fold_inorder rest _ (c + 1) ?_ ((h2.of_cons).of_cons), hsr]
      · simp [List.append_assoc]
      · intro x hx y hy
        rw [hsr] at hx
        rcases List.mem_append.mp hx with hx1 | hx2
        · rcases List.mem_append.mp hx1 with hx3 | hx4
          · exact h1 x hx3 y (by simp [hy])
          · have hxe : x = splitLeft shard := by simpa using hx4
            subst hxe
            exact List.rel_of_pairwise_cons h2 (by simp [hy])
        · have hxe : x = splitRight c shard := by simpa using hx2
          subst hxe
          exact List.rel_of_pairwise_cons h2.of_cons hy
    · have he : rebalanceExpand (shard :: rest) c = shard :: rebalanceExpand rest c := by
        rw [rebalanceExpand, if_neg hs]
      rw [he] at h1 h2 ⊢
      simp only [List.foldl_cons, if_neg hs]
      have hins : (t.Insert shard).inorder = t.inorder ++ [shard] :=
        inorder_Insert_ge t _ (fun x hx => h1 x hx _ (by simp))
      rw [rebalance_fold_inorder rest _ c ?_ h2.of_cons, hins]
      · simp [List.append_assoc]
      · intro x hx y hy
        rw [hins] at hx
        rcases List.mem_append.mp hx with hx1 | hx2
        · exact h1 x hx1 y (by simp [hy])
        · have hxe : x = shard := by simpa using hx2
          subst hxe
          exact List.rel_of_pairwise_cons h2 hy

theorem RebalanceShards_inorder (sm : ShardManager)
    (h2 : List.Pairwise (fun a b => a.ID ≤ b.ID)
      (rebalanceExpand sm.Shards.GetAllShards (sm.Shards.GetAllShards.length : Int))) :
    sm.RebalanceShards.Shards.GetAllShards =
      rebalanceExpand sm.Shards.GetAllShards (sm.Shards.GetAllShards.length : Int) := by
  show (sm.Shards.GetAllShards.foldl _ (RBTree.nil, _)).1.inorder = _
  rw [rebalance_fold_inorder _ RBTree.nil _ (by intro x hx; simp [RBTree.inorder] at hx) h2]
  simp [RBTree.inorder]

theorem pairwise_le_of_ids_range (l : List Shard) (n : Nat)
    (h : l.map Shard.ID = (List.range n).map Int.ofNat) :
    List.Pairwise (fun a b => a.ID ≤ b.ID) l := by
  have h1 : List.Pairwise (fun a b : Int => a ≤ b) (l.map Shard.ID) := by
    rw [h]
    exact (List.pairwise_lt_range n).map _ (fun a b hab => Int.ofNat_le.mpr (Nat.le_of_lt hab))
  exact List.pairwise_map.mp h1

theorem enum_len_of_ids {sm : ShardManager} {n : Nat}
    (hids : sm.Shards.GetAllShards.map Shard.ID = (List.range n).map Int.ofNat) :
    sm.Shards.GetAllShards.length = n := by
  have := congrArg List.length hids
  simpa using this

theorem InvDR_rebalance (sm : ShardManager) (hInv : InvDR sm) : InvDR sm.RebalanceShards := by
  obtain ⟨n, hn, hids, hsz⟩ := hInv
  have hexp : rebalanceExpand sm.Shards.GetAllShards ((sm.Shards.GetAllShards.length : Int)) =
      sm.Shards.GetAllShards := rebalanceExpand_no_split _ _ hsz
  have h2 : List.Pairwise (fun a b => a.ID ≤ b.ID)
      (rebalanceExpand sm.Shards.GetAllShards ((sm.Shards.GetAllShards.length : Int))) := by
    rw [hexp]
    exact pairwise_le_of_ids_range _ n hids
  have henum := RebalanceShards_inorder sm h2
  rw [hexp] at henum
  exact ⟨n, hn, by rw [henum]; exact hids, by rw [henum]; exact hsz⟩

theorem distribute_cur (sm : ShardManager) (b : Block)
    (hne : sm.Shards.GetAllShards ≠ []) :
    (updateLastShard (fun s => s.AddBlock b) sm.Shards).GetAllShards =
      sm.Shards.GetAllShards.dropLast ++ [(sm.Shards.GetAllShards.getLast hne).AddBlock b] :=
  inorder_updateLastShard _ sm.Shards _ _ (List.dropLast_append_getLast hne).symm

theorem InvDR_distribute (sm sm' : ShardManager) (b : Block) (hInv : InvDR sm)
    (hd : sm.DistributeBlock b = some sm') : InvDR sm' := by
  obtain ⟨n, hn, hids, hsz⟩ := hInv
  have hLn : sm.Shards.GetAllShards.length = n := enum_len_of_ids hids
  have hne : sm.Shards.GetAllShards ≠ [] := by
    intro h0
    rw [h0] at hLn
    simp at hLn
    omega
  unfold ShardManager.DistributeBlock at hd
  rw [if_neg hne] at hd
  injection hd with hd
  subst hd
  set sm2 : ShardManager := { Shards := updateLastShard (fun s => s.AddBlock b) sm.Shards }
    with hsm2
  have hcur : sm2.Shards.GetAllShards = sm.Shards.GetAllShards.dropLast ++
      [(sm.Shards.GetAllShards.getLast hne).AddBlock b] := distribute_cur sm b hne
  have hconc : sm.Shards.GetAllShards.dropLast ++ [sm.Shards.GetAllShards.getLast hne] =
      sm.Shards.GetAllShards := List.dropLast_append_getLast hne
  have hcur_ids : sm2.Shards.GetAllShards.map Shard.ID = (List.range n).map Int.ofNat := by
    rw [hcur]
    simp only [List.map_append, List.map_cons, List.map_nil]
    calc sm.Shards.GetAllShards.dropLast.map Shard.ID ++
          [((sm.Shards.GetAllShards.getLast hne).AddBlock b).ID]
        = sm.Shards.GetAllShards.dropLast.map Shard.ID ++
          [(sm.Shards.GetAllShards.getLast hne).ID] := by rw [AddBlock_ID]
      _ = (sm.Shards.GetAllShards.dropLast ++ [sm.Shards.GetAllShards.getLast hne]).map
            Shard.ID := by simp
      _ = sm.Shards.GetAllShards.map Shard.ID := by rw [hconc]
      _ = (List.range n).map Int.ofNat := hids
  have hcur_len : sm2.Shards.GetAllShards.length = n := enum_len_of_ids hcur_ids
  have hsz_front : ∀ s ∈ sm.Shards.GetAllShards.dropLast,
      s.Blocks.length ≤ MaxBlocksPerShard :=
    fun s hs => hsz s ((List.dropLast_sublist _).subset hs)
  have hlast_le : (sm.Shards.GetAllShards.getLast hne).Blocks.length ≤ MaxBlocksPerShard :=
    hsz _ (List.getLast_mem hne)
  have hlast_len : ((sm.Shards.GetAllShards.getLast hne).AddBlock b).Blocks.length =
      (sm.Shards.GetAllShards.getLast hne).Blocks.length + 1 := by
    simp [Shard.AddBlock]
  by_cases hbig : MaxBlocksPerShard <
      ((sm.Shards.GetAllShards.getLast hne).AddBlock b).Blocks.length
  · have hM : MaxBlocksPerShard = 3 := rfl
    have hlen4 : ((sm.Shards.GetAllShards.getLast hne).AddBlock b).Blocks.length = 4 := by
      omega
    have hexp : rebalanceExpand sm2.Shards.GetAllShards
        ((sm2.Shards.GetAllShards.length : Int)) =
        sm.Shards.GetAllShards.dropLast ++
          [splitLeft ((sm.Shards.GetAllShards.getLast hne).AddBlock b),
           splitRight (n : Int) ((sm.Shards.GetAllShards.getLast hne).AddBlock b)] := by
      rw [hcur_len, hcur, rebalanceExpand_front _ _ _ hsz_front]
      rw [rebalanceExpand, if_pos hbig, rebalanceExpand]
    have hids' : (sm.Shards.GetAllShards.dropLast ++
        [splitLeft ((sm.Shards.GetAllShards.getLast hne).AddBlock b),
         splitRight (n : Int) ((sm.Shards.GetAllShards.getLast hne).AddBlock b)]).map Shard.ID =
        (List.range (n + 1)).map Int.ofNat := by
      calc (sm.Shards.GetAllShards.dropLast ++
            [splitLeft ((sm.Shards.GetAllShards.getLast hne).AddBlock b),
             splitRight (n : Int) ((sm.Shards.GetAllShards.getLast hne).AddBlock b)]).map
              Shard.ID
          = (sm.Shards.GetAllShards.dropLast.map Shard.ID ++
              [(sm.Shards.GetAllShards.getLast hne).ID]) ++ [(n : Int)] := by
            simp [splitLeft_ID, splitRight_ID, AddBlock_ID]
        _ = sm.Shards.GetAllShards.map Shard.ID ++ [(n : Int)] := by
            rw [show sm.Shards.GetAllShards.dropLast.map Shard.ID ++
              [(sm.Shards.GetAllShards.getLast hne).ID] =
              (sm.Shards.GetAllShards.dropLast ++
                [sm.Shards.GetAllShards.getLast hne]).map Shard.ID by simp, hconc]
        _ = (List.range (n + 1)).map Int.ofNat := by
            rw [hids, List.range_succ]
            simp
    have h2p : List.Pairwise (fun a b => a.ID ≤ b.ID)
        (rebalanceExpand sm2.Shards.GetAllShards ((sm2.Shards.GetAllShards.length : Int))) := by
      rw [hexp]
      exact pairwise_le_of_ids_range _ (n + 1) hids'
    have henum := RebalanceShards_inorder sm2 h2p
    rw [hexp] at henum
    have hsz' : ∀ s ∈ sm.Shards.GetAllShards.dropLast ++
        [splitLeft ((sm.Shards.GetAllShards.getLast hne).AddBlock b),
         splitRight (n : Int) ((sm.Shards.GetAllShards.getLast hne).AddBlock b)],
        s.Blocks.length ≤ MaxBlocksPerShard := by
      intro s hs
      rcases List.mem_append.mp hs with h1 | h2
      · exact hsz_front s h1
      · rcases List.mem_cons.mp h2 with h3 | h4
        · subst h3
          rw [splitLeft_len, hlen4]
          omega
        · have : s = splitRight (n : Int)
              ((sm.Shards.GetAllShards.getLast hne).AddBlock b) := by simpa using h4
          subst this
          rw [splitRight_len, hlen4]
          omega
    exact ⟨n + 1, by omega, by rw [henum]; exact hids', by rw [henum]; exact hsz'⟩
  · have hsz2 : ∀ s ∈ sm2.Shards.GetAllShards, s.Blocks.length ≤ MaxBlocksPerShard := by
      rw [hcur]
      intro s hs
      rcases List.mem_append.mp hs with h1 | h2
      · exact hsz_front s h1
      · have : s = (sm.Shards.GetAllShards.getLast hne).AddBlock b := by simpa using h2
        subst this
        omega
    have hexp : rebalanceExpand sm2.Shards.GetAllShards
        ((sm2.Shards.GetAllShards.length : Int)) = sm2.Shards.GetAllShards :=
      rebalanceExpand_no_split _ _ hsz2
    have h2p : List.Pairwise (fun a b => a.ID ≤ b.ID)
        (rebalanceExpand sm2.Shards.GetAllShards ((sm2.Shards.GetAllShards.length : Int))) := by
      rw [hexp]
      exact pairwise_le_of_ids_range _ n hcur_ids
    have henum := RebalanceShards_inorder sm2 h2p
    rw [hexp] at henum
    exact ⟨n, hn, by rw [henum]; exact hcur_ids, by rw [henum]; exact hsz2⟩

theorem InvDR_holds (sm : ShardManager) (h : ReachDR sm) : InvDR sm := by
  induction h with
  | init => exact ⟨1, by omega, by decide, by decide⟩
  | @distribute smm smm' b hr hsome ih => exact InvDR_distribute smm smm' b ih hsome
  | @rebalance smm hr ih => exact InvDR_rebalance smm ih

theorem splitIDs_of_InvDR (sm : ShardManager) (hInv : InvDR sm) : splitIDsFresh sm := by
  obtain ⟨n, hn, hids, hsz⟩ := hInv
  intro b nid hnid s hs
  have hLn : sm.Shards.GetAllShards.length = n := enum_len_of_ids hids
  have hne : sm.Shards.GetAllShards ≠ [] := by
    intro h0
    rw [h0] at hLn
    simp at hLn
    omega
  have hsz_front : ∀ x ∈ sm.Shards.GetAllShards.dropLast,
      x.Blocks.length ≤ MaxBlocksPerShard :=
    fun x hx => hsz x ((List.dropLast_sublist _).subset hx)
  unfold distributeSplitIDs at hnid
  rw [distribute_cur sm b hne, rebalanceSplitIDs_front _ _ _ hsz_front] at hnid
  by_cases hbig : MaxBlocksPerShard <
      ((sm.Shards.GetAllShards.getLast hne).AddBlock b).Blocks.length
  · rw [rebalanceSplitIDs, if_pos hbig, rebalanceSplitIDs] at hnid
    have hclen : (sm.Shards.GetAllShards.dropLast ++
        [(sm.Shards.GetAllShards.getLast hne).AddBlock b]).length = n := by
      have h1 : 0 < sm.Shards.GetAllShards.length := List.length_pos.mpr hne
      simp [List.length_dropLast]
      omega
    rw [hclen] at hnid
    have hnide : nid = (n : Int) := by simpa using hnid
    subst hnide
    have hmem : s.ID ∈ (List.range n).map Int.ofNat := by
      rw [← hids]
      exact List.mem_map_of_mem _ hs
    obtain ⟨k, hk, hke⟩ := List.mem_map.mp hmem
    have hkn : k < n := List.mem_range.mp hk
    rw [← hke]
    exact Int.ofNat_lt.mpr hkn
  · rw [rebalanceSplitIDs, if_neg hbig, rebalanceSplitIDs] at hnid
    exact absurd hnid (List.not_mem_nil nid)

/-- C3 (amended): starting from `NewShardManager`, after any sequence of
`DistributeBlock` and `RebalanceShards` operations (no `MergeShards`
interleaved — with merges all three properties fail, see the counterexample),
every enumerated shard holds at most `MaxBlocksPerShard` blocks, the shard IDs
are pairwise distinct, and any shard a split would create during a
`DistributeBlock` receives an ID strictly greater than every current shard
ID. -/
theorem C3_shard_manager_invariants (sm : ShardManager) (h : ReachDR sm) :
    shardSizesOK sm ∧ shardIDsDistinct sm ∧ splitIDsFresh sm := by
  obtain ⟨n, hn, hids, hsz⟩ := InvDR_holds sm h
  refine ⟨hsz, ?_, splitIDs_of_InvDR sm ⟨n, hn, hids, hsz⟩⟩
  unfold shardIDsDistinct
  rw [hids]
  exact (List.pairwise_lt_range n).map _
    (fun a b hab hEq => absurd (Int.ofNat.inj hEq) (Nat.ne_of_lt hab))

/-- C3 counterexample: with `MergeShards` interleaved the claim fails.  After
six distributed blocks, `MergeShards 3` then `RebalanceShards` yields shard
IDs `[0, 2, 2]` — a duplicate ID, produced by a split whose new ID (2) is NOT
strictly greater than the pre-split IDs {0, 2}.  And after two merges and a
seventh `DistributeBlock`, the enumeration immediately after that call's
rebalance has block counts `[3, 4]`: a shard exceeds `MaxBlocksPerShard`. -/
theorem C3_counterexample :
    c3smA.map (fun sm => sm.Shards.GetAllShards.map Shard.ID) = some [0, 2, 2] ∧
    c3smB.map (fun sm => sm.Shards.GetAllShards.map (fun s => s.Blocks.length)) =
      some [3, 4] := by
  refine ⟨by decide, by decide⟩

theorem C3_witness :
    ReachDR (ShardManager.RebalanceShards NewShardManager) ∧
    (shardSizesOK (ShardManager.RebalanceShards NewShardManager) ∧
     shardIDsDistinct (ShardManager.RebalanceShards NewShardManager) ∧
     splitIDsFresh (ShardManager.RebalanceShards NewShardManager)) :=
  ⟨ReachDR.rebalance ReachDR.init,
   C3_shard_manager_invariants _ (ReachDR.rebalance ReachDR.init)⟩
